import Mathlib

/-!
The Duck Race: a shallow embedding of `main.go`.

The program parses a comma-separated list of names, builds one `Duck` per name, and runs a
tick loop in which every duck advances by a random amount until one of them reaches the
finish line or the time budget is exhausted.  Each frame renders one track row per duck and
a leaderboard; on timeout the ducks are sorted by distance.

Go `int` values are embedded as `Int` (no arithmetic here can overflow: positions are
clamped to `finishLine` and ranks are list indices).  Go strings are embedded as Lean
`String`s, i.e. as sequences of Unicode code points (well-formed UTF-8).  The random source
and the wall clock are parameters.  `sort.Slice` is the Go standard library's pattern-defeating
quicksort (`sort/zsortfunc.go`, Go 1.19 and later), embedded function by function.
-/

namespace DuckRace

/-! ## Data model -/

/-- Go: `type Duck struct { Name string; Position int; AnimationFrame int }`. -/
structure Duck where
  Name : String
  Position : Int
  AnimationFrame : Int
deriving DecidableEq, Repr, Inhabited

/-- Go: `func NewDuck(name string) *Duck`. -/
def NewDuck (name : String) : Duck :=
  { Name := name, Position := 0, AnimationFrame := 0 }

/-- Go: `sprites := []string{"🦆"}` inside `GetSprite`. -/
def sprites : List String := ["🦆"]

/-- Go: `func (d *Duck) GetSprite() string`; `%` is Go's truncated remainder. -/
def Duck.GetSprite (d : Duck) : String :=
  sprites.getD (d.AnimationFrame.tmod (sprites.length : Int)).toNat ""

/-- Go: `trackWidth := 60`. -/
def trackWidth : Int := 60

/-- Go: `finishLine := trackWidth - 15`. -/
def finishLine : Int := trackWidth - 15

/-- Go: `type RaceConfig struct { Duration int; Names []string }`. -/
structure RaceConfig where
  Duration : Int
  Names : List String
deriving DecidableEq, Repr

/-! ## `getOrdinal` -/

/-- Go: `fmt.Sprintf("%d", n)`: the decimal digits of `n`, with a leading `-` when negative. -/
def sprintfD (n : Int) : String :=
  match n with
  | Int.ofNat m => Nat.repr m
  | Int.negSucc m => "-" ++ Nat.repr (m + 1)

/-- Go: `func getOrdinal(n int) string`.  The `switch n % 10` has the cases 1, 2, 3 and no
default; every case only overwrites `suffix` under its inner `if`. -/
def getOrdinal (n : Int) : String :=
  let suffix := "th"
  let suffix :=
    if n.tmod 10 = 1 then
      (if n.tmod 100 ≠ 11 then "st" else suffix)
    else if n.tmod 10 = 2 then
      (if n.tmod 100 ≠ 12 then "nd" else suffix)
    else if n.tmod 10 = 3 then
      (if n.tmod 100 ≠ 13 then "rd" else suffix)
    else suffix
  sprintfD n ++ suffix

/-- The suffix rule in the words of the specification, on natural numbers: "th" when
`n mod 100` is 11, 12 or 13; otherwise "st", "nd", "rd" when `n mod 10` is 1, 2, 3; "th" for
every other `n`. -/
def ordinalSuffixSpec (n : Nat) : String :=
  if n % 100 = 11 ∨ n % 100 = 12 ∨ n % 100 = 13 then "th"
  else if n % 10 = 1 then "st"
  else if n % 10 = 2 then "nd"
  else if n % 10 = 3 then "rd"
  else "th"

/-! ## `parseArgs` -/

/-- Go: `unicode.IsSpace`: the Latin-1 spaces `\t \n \v \f \r`, space, U+0085, U+00A0, and
the `White_Space` table outside Latin-1. -/
def isSpace (c : Char) : Bool :=
  let r := c.toNat
  (0x09 ≤ r && r ≤ 0x0D) || r == 0x20 || r == 0x85 || r == 0xA0 || r == 0x1680 ||
  (0x2000 ≤ r && r ≤ 0x200A) || r == 0x2028 || r == 0x2029 || r == 0x202F ||
  r == 0x205F || r == 0x3000

/-- Go: `strings.TrimSpace`, which is `TrimRightFunc(TrimLeftFunc(s, IsSpace), IsSpace)`. -/
def TrimSpace (s : String) : String :=
  String.mk ((s.data.dropWhile isSpace).rdropWhile isSpace)

/-- Go: `strings.Index(s, ",")`, the position of the first comma, if any. -/
def indexComma : List Char → Option Nat
  | [] => none
  | c :: cs => if c = ',' then some 0 else (indexComma cs).map (· + 1)

/-- Go: `strings.Count(s, ",")`. -/
def countComma (s : List Char) : Nat := s.count ','

/-- Go: the loop of `strings.genSplit`, run at most `n` times: cut at the first separator,
store the part before it, continue behind it; the rest is the last element. -/
def genSplit : Nat → List Char → List (List Char)
  | 0, s => [s]
  | n + 1, s =>
    match indexComma s with
    | none => [s]
    | some m => s.take m :: genSplit n (s.drop (m + 1))

/-- Go: `strings.Split(s, ",")`, that is `genSplit(s, ",", 0, -1)` with `n = Count(s, ",") + 1`
result slots. -/
def Split (s : String) : List String :=
  (genSplit (countComma s.data) s.data).map String.mk

/-- Go: the loop `for _, name := range names { name = TrimSpace(name); if name != "" {
cleanNames = append(cleanNames, name) } }`, with `cleanNames` as accumulator. -/
def cleanLoop : List String → List String → List String
  | [], cleanNames => cleanNames
  | name :: rest, cleanNames =>
    let name := TrimSpace name
    if name ≠ "" then cleanLoop rest (cleanNames ++ [name])
    else cleanLoop rest cleanNames

/-- Go: `func parseArgs() (*RaceConfig, error)`, as a function of the value of the `-n` flag
after `flag.Parse()` (the empty string when the flag is absent).  `Duration` is left at its
zero value by the struct literal. -/
def parseArgs (namesFlag : String) : Except String RaceConfig :=
  if namesFlag = "" then
    Except.error "at least one name must be specified with -n"
  else
    let names := Split namesFlag
    let cleanNames := cleanLoop names []
    if cleanNames.length = 0 then
      Except.error "at least one valid name must be provided"
    else
      Except.ok { Duration := 0, Names := cleanNames }

/-- The parser in the words of the specification: split on `,`, trim every token, drop the
tokens that are then empty. -/
def trimmedTokensSpec (namesFlag : String) : List String :=
  ((Split namesFlag).map TrimSpace).filter (fun t => t ≠ "")

/-! ## Race state and the tick loop -/

/-- Go: `for _, name := range config.Names { ducks = append(ducks, NewDuck(name)) }`. -/
def makeDucks (names : List String) : List Duck :=
  names.map NewDuck

/-- One duck's random draws in one tick: `moves` is the outcome of `rand.Float64() < 0.7`,
`intn` the value of `rand.Intn(3)`. -/
structure Draw where
  moves : Bool
  intn : Fin 3
deriving DecidableEq, Repr

/-- Go: the position update and frame increment of the tick loop's body for one duck. -/
def updateDuck (dr : Draw) (duck : Duck) : Duck :=
  let duck :=
    if dr.moves then
      let speed : Int := (dr.intn.val : Int) + 1
      let duck := { duck with Position := duck.Position + speed }
      if duck.Position > finishLine then { duck with Position := finishLine } else duck
    else duck
  { duck with AnimationFrame := duck.AnimationFrame + 1 }

/-- The mutable state of the race loop: the participant list and the `winner` variable. -/
structure RaceState where
  ducks : List Duck
  winner : String
deriving DecidableEq, Repr

/-- Go: `for _, duck := range ducks { ...update...; if duck.Position >= finishLine &&
winner == "" { winner = duck.Name } }`; the duck at list index `i` uses the draw `rnd i`. -/
def tickLoop (rnd : Nat → Draw) : Nat → List Duck → String → List Duck × String
  | _, [], winner => ([], winner)
  | i, duck :: rest, winner =>
    let duck := updateDuck (rnd i) duck
    let winner := if duck.Position ≥ finishLine ∧ winner = "" then duck.Name else winner
    let r := tickLoop rnd (i + 1) rest winner
    (duck :: r.1, r.2)

/-- The ducks after the update loop of one tick, without the winner bookkeeping: the duck at
list index `i + k` is updated with the draw `rnd (i + k)`. -/
def updatedDucks (rnd : Nat → Draw) : Nat → List Duck → List Duck
  | _, [] => []
  | i, duck :: rest => updateDuck (rnd i) duck :: updatedDucks rnd (i + 1) rest

/-- One tick of the race: the update loop over all ducks in list order. -/
def tick (rnd : Nat → Draw) (st : RaceState) : RaceState :=
  let r := tickLoop rnd 0 st.ducks st.winner
  { ducks := r.1, winner := r.2 }

/-- The state when the loop is entered: the ducks of `makeDucks`, `var winner string`. -/
def initState (names : List String) : RaceState :=
  { ducks := makeDucks names, winner := "" }

/-- The state after the update loop of the `n`-th iteration; tick `t + 1` uses the draws
`rnd t`. -/
def ticks (rnd : Nat → Nat → Draw) : Nat → RaceState → RaceState
  | 0, st => st
  | n + 1, st => tick (rnd n) (ticks rnd n st)

/-- Go: the loop `for { ...; if winner != "" || elapsed >= totalDuration { break } ... }`:
`timedOut t` is the outcome of `elapsed >= totalDuration` in iteration `t` (0-based).  The
result is the state at the `break` together with the number of iterations run, or `none` when
`fuel` iterations did not reach the `break`. -/
def raceLoop (rnd : Nat → Nat → Draw) (timedOut : Nat → Bool) :
    Nat → Nat → RaceState → Option (RaceState × Nat)
  | 0, _, _ => none
  | fuel + 1, t, st =>
    let st := tick (rnd t) st
    if st.winner ≠ "" ∨ timedOut t = true then some (st, t + 1)
    else raceLoop rnd timedOut fuel (t + 1) st

/-- The random source of the specification's example: every duck moves on every tick with
`rand.Intn(3) = 2`, i.e. speed 3. -/
def fullSpeed : Nat → Nat → Draw := fun _ _ => { moves := true, intn := 2 }

/-- The first duck in list order whose position has reached the finish line. -/
def firstFinisher (ducks : List Duck) : Option Duck :=
  ducks.find? (fun d => decide (d.Position ≥ finishLine))

/-- Invariant of the race loop: names are non-empty, positions lie between 0 and
`finishLine`, no duck is at the finish line while `winner` is empty, and a recorded winner
names a duck standing at the finish line. -/
def RaceInv (st : RaceState) : Prop :=
  (∀ d ∈ st.ducks, d.Name ≠ "" ∧ 0 ≤ d.Position ∧ d.Position ≤ finishLine) ∧
  (st.winner = "" → ∀ d ∈ st.ducks, d.Position < finishLine) ∧
  (st.winner ≠ "" → ∃ d ∈ st.ducks, d.Name = st.winner ∧ d.Position = finishLine)

/-! ## Rendering a track row -/

/-- Go: `fmt.Printf("%-10s", s)`: left-justified, padded with spaces to 10 runes, never
truncated. -/
def padName (s : String) : String :=
  s ++ String.mk (List.replicate (10 - s.length) ' ')

/-- Go: the `if`/`else if` chain printing one track column. -/
def cell (duck : Duck) (pos : Int) : String :=
  if pos = duck.Position then duck.GetSprite
  else if pos = finishLine then "🏁"
  else if pos < duck.Position then "~"
  else " "

/-- Go: `for pos := 0; pos < trackWidth; pos++ { ... }`, as the concatenated output from
column `pos` on; the first argument bounds the number of iterations left. -/
def trackLoop (duck : Duck) : Nat → Int → String
  | 0, _ => ""
  | n + 1, pos => if pos < trackWidth then cell duck pos ++ trackLoop duck n (pos + 1) else ""

/-- Go: the output of one iteration of the track rendering loop: the name field, the cells,
and `fmt.Println("|")`. -/
def renderRow (duck : Duck) : String :=
  padName duck.Name ++ " |" ++ trackLoop duck trackWidth.toNat 0 ++ "|\n"

/-- The cell of column `c` in the words of the specification. -/
def cellSpec (duckGlyph : String) (position : Int) (c : Nat) : String :=
  if (c : Int) = position then duckGlyph
  else if (c : Int) = 45 then "🏁"
  else if (c : Int) < position then "~"
  else " "

end DuckRace

namespace DuckRace

/-! ## `sort.Slice`

Both calls in `main.go` pass the closure `ducks[i].Position > ducks[j].Position`.  The
functions below follow `sort/zsortfunc.go`; `data.Less` is the closure and `data.Swap` the
swapper of `reflect`, both acting on the slice being sorted.  Indices are natural numbers
(Go's are non-negative wherever they are used). -/

/-- Go: `ducks[i].Position`, the sort key at index `i`. -/
def key (data : List Duck) (i : Nat) : Int :=
  (data.getD i default).Position

/-- Go: `data.Less(i, j)`, the closure `ducks[i].Position > ducks[j].Position`. -/
def Less (data : List Duck) (i j : Nat) : Bool :=
  decide (key data i > key data j)

/-- Go: `data.Swap(i, j)`; both indices are inside the slice wherever the sort calls it. -/
def swapAt (data : List Duck) (i j : Nat) : List Duck :=
  if i < data.length ∧ j < data.length then
    (data.set i (data.getD j default)).set j (data.getD i default)
  else data

/-- Go: the inner loop of `insertionSort_func`:
`for j := i; j > a && data.Less(j, j-1); j-- { data.Swap(j, j-1) }`. -/
def insertionInner (a : Nat) : Nat → List Duck → List Duck
  | 0, data => data
  | j + 1, data =>
    if a < j + 1 ∧ Less data (j + 1) j = true then insertionInner a j (swapAt data (j + 1) j)
    else data

/-- Go: the outer loop of `insertionSort_func`, `for i := a + 1; i < b; i++`, with the
number of remaining iterations as first argument. -/
def insertionOuter (a b : Nat) : Nat → Nat → List Duck → List Duck
  | 0, _, data => data
  | n + 1, i, data =>
    if i < b then insertionOuter a b n (i + 1) (insertionInner a i data) else data

/-- Go: `func insertionSort_func(data lessSwap, a, b int)`. -/
def insertionSort_func (data : List Duck) (a b : Nat) : List Duck :=
  insertionOuter a b (b - (a + 1)) (a + 1) data

/-- Go: the loop of `siftDown_func`; `root` grows in every iteration and stays below `hi`,
so `hi` iterations are never exceeded. -/
def siftDownLoop (hi first : Nat) : Nat → Nat → List Duck → List Duck
  | 0, _, data => data
  | fuel + 1, root, data =>
    let child := 2 * root + 1
    if child ≥ hi then data
    else
      let child :=
        if child + 1 < hi ∧ Less data (first + child) (first + child + 1) = true then child + 1
        else child
      if Less data (first + root) (first + child) = false then data
      else siftDownLoop hi first fuel child (swapAt data (first + root) (first + child))

/-- Go: `func siftDown_func(data lessSwap, lo, hi, first int)`. -/
def siftDown_func (data : List Duck) (lo hi first : Nat) : List Duck :=
  siftDownLoop hi first hi lo data

/-- Go: `for i := (hi - 1) / 2; i >= 0; i-- { siftDown_func(data, i, hi, first) }`, from
`i` down to 0. -/
def heapBuild (hi first : Nat) : Nat → List Duck → List Duck
  | 0, data => siftDown_func data 0 hi first
  | i + 1, data => heapBuild hi first i (siftDown_func data (i + 1) hi first)

/-- Go: `for i := hi - 1; i >= 0; i-- { data.Swap(first, first+i);
siftDown_func(data, lo, i, first) }`, the argument being `i + 1`. -/
def heapPop (first : Nat) : Nat → List Duck → List Duck
  | 0, data => data
  | i + 1, data => heapPop first i (siftDown_func (swapAt data first (first + i)) 0 i first)

/-- Go: `func heapSort_func(data lessSwap, a, b int)`. -/
def heapSort_func (data : List Duck) (a b : Nat) : List Duck :=
  let first := a
  let hi := b - a
  heapPop first hi (heapBuild hi first ((hi - 1) / 2) data)

/-- Go: `for i <= j && data.Less(i, a) { i++ }` in `partition_func`; the first argument
bounds the iterations by `j + 1 - i`. -/
def scanUp (data : List Duck) (a j : Nat) : Nat → Nat → Nat
  | 0, i => i
  | n + 1, i => if i ≤ j ∧ Less data i a = true then scanUp data a j n (i + 1) else i

/-- Go: `for i <= j && !data.Less(j, a) { j-- }` in `partition_func`. -/
def scanDown (data : List Duck) (a i : Nat) : Nat → Nat → Nat
  | 0, j => j
  | n + 1, j => if i ≤ j ∧ Less data j a = false then scanDown data a i n (j - 1) else j

/-- Go: the second, unbounded `for` loop of `partition_func`; returns the slice and `j` at
the `break`. -/
def partitionLoop (a : Nat) : Nat → List Duck → Nat → Nat → List Duck × Nat
  | 0, data, _, j => (data, j)
  | n + 1, data, i, j =>
    let i := scanUp data a j (j + 1 - i) i
    let j := scanDown data a i (j + 1 - i) j
    if i > j then (data, j)
    else partitionLoop a n (swapAt data i j) (i + 1) (j - 1)

/-- Go: `func partition_func(data lessSwap, a, b, pivot int) (newpivot int,
alreadyPartitioned bool)`, returning the slice as well. -/
def partition_func (data : List Duck) (a b pivot : Nat) : List Duck × Nat × Bool :=
  let data := swapAt data a pivot
  let i := a + 1
  let j := b - 1
  let i := scanUp data a j (j + 1 - i) i
  let j := scanDown data a i (j + 1 - i) j
  if i > j then (swapAt data j a, j, true)
  else
    let data := swapAt data i j
    let r := partitionLoop a (j - i) data (i + 1) (j - 1)
    (swapAt r.1 r.2 a, r.2, false)

/-- Go: `for i <= j && !data.Less(a, i) { i++ }` in `partitionEqual_func`. -/
def scanUpEq (data : List Duck) (a j : Nat) : Nat → Nat → Nat
  | 0, i => i
  | n + 1, i => if i ≤ j ∧ Less data a i = false then scanUpEq data a j n (i + 1) else i

/-- Go: `for i <= j && data.Less(a, j) { j-- }` in `partitionEqual_func`. -/
def scanDownEq (data : List Duck) (a i : Nat) : Nat → Nat → Nat
  | 0, j => j
  | n + 1, j => if i ≤ j ∧ Less data a j = true then scanDownEq data a i n (j - 1) else j

/-- Go: the `for` loop of `partitionEqual_func`; returns the slice and `i` at the `break`. -/
def partitionEqualLoop (a : Nat) : Nat → List Duck → Nat → Nat → List Duck × Nat
  | 0, data, i, _ => (data, i)
  | n + 1, data, i, j =>
    let i := scanUpEq data a j (j + 1 - i) i
    let j := scanDownEq data a i (j + 1 - i) j
    if i > j then (data, i)
    else partitionEqualLoop a n (swapAt data i j) (i + 1) (j - 1)

/-- Go: `func partitionEqual_func(data lessSwap, a, b, pivot int) (newpivot int)`. -/
def partitionEqual_func (data : List Duck) (a b pivot : Nat) : List Duck × Nat :=
  let data := swapAt data a pivot
  partitionEqualLoop a (b - a) data (a + 1) (b - 1)

/-- Go: `for i < b && !data.Less(i, i-1) { i++ }` in `partialInsertionSort_func`. -/
def skipSorted (data : List Duck) (b : Nat) : Nat → Nat → Nat
  | 0, i => i
  | n + 1, i => if i < b ∧ Less data i (i - 1) = false then skipSorted data b n (i + 1) else i

/-- Go: `for j := i - 1; j >= 1; j-- { if !data.Less(j, j-1) { break }; data.Swap(j, j-1) }`,
started at `j`. -/
def shiftLeft : Nat → List Duck → List Duck
  | 0, data => data
  | j + 1, data =>
    if Less data (j + 1) j = false then data else shiftLeft j (swapAt data (j + 1) j)

/-- Go: `for j := i + 1; j < b; j++ { if !data.Less(j, j-1) { break }; data.Swap(j, j-1) }`,
with the number of remaining iterations as first argument. -/
def shiftRight (b : Nat) : Nat → Nat → List Duck → List Duck
  | 0, _, data => data
  | n + 1, j, data =>
    if j < b then
      (if Less data j (j - 1) = false then data
       else shiftRight b n (j + 1) (swapAt data j (j - 1)))
    else data

/-- Go: the loop `for j := 0; j < maxSteps; j++` of `partialInsertionSort_func`, with the
number of remaining steps as first argument; `shortestShifting = 50`. -/
def partialLoop (a b : Nat) : Nat → Nat → List Duck → List Duck × Bool
  | 0, _, data => (data, false)
  | s + 1, i, data =>
    let i := skipSorted data b (b - i) i
    if i = b then (data, true)
    else if b - a < 50 then (data, false)
    else
      let data := swapAt data i (i - 1)
      let data := if i - a ≥ 2 then shiftLeft (i - 1) data else data
      let data := if b - i ≥ 2 then shiftRight b (b - (i + 1)) (i + 1) data else data
      partialLoop a b s i data

/-- Go: `func partialInsertionSort_func(data lessSwap, a, b int) bool`, `maxSteps = 5`. -/
def partialInsertionSort_func (data : List Duck) (a b : Nat) : List Duck × Bool :=
  partialLoop a b 5 (a + 1) data

/-- Counts the binary digits of `n` by halving; the first argument bounds the halvings. -/
def bitsLenAux : Nat → Nat → Nat
  | 0, _ => 0
  | fuel + 1, n => if n = 0 then 0 else bitsLenAux fuel (n / 2) + 1

/-- Go: `bits.Len(uint(n))`, the number of bits needed to write `n`; 0 for `n = 0`. -/
def bitsLen (n : Nat) : Nat := bitsLenAux n n

/-- Go: `func nextPowerOfTwo(length int) uint`. -/
def nextPowerOfTwo (length : Nat) : Nat := 2 ^ bitsLen length

/-- Go: the loop `for i := 0; i < 3; i++` of `breakPatterns_func`; `random i` is the value
of the `i`-th call of `random.Next()`. -/
def breakLoop (random : Nat → Nat) (a length modulus idx : Nat) :
    Nat → Nat → List Duck → List Duck
  | 0, _, data => data
  | n + 1, i, data =>
    let other := random i % modulus
    let other := if other ≥ length then other - length else other
    breakLoop random a length modulus idx n (i + 1) (swapAt data (idx - 1 + i) (a + other))

/-- Go: `func breakPatterns_func(data lessSwap, a, b int)`.  `xorshift length i` stands for
the value returned by the `i`-th call of `Next()` on the generator seeded with `length`. -/
def breakPatterns_func (xorshift : Nat → Nat → Nat) (data : List Duck) (a b : Nat) :
    List Duck :=
  let length := b - a
  if length ≥ 8 then
    let modulus := nextPowerOfTwo length
    let idx := a + (length / 4) * 2 - 1
    breakLoop (xorshift length) a length modulus idx 3 0 data
  else data

/-- Go: `type sortedHint int` with its three constants. -/
inductive sortedHint where
  | unknownHint
  | increasingHint
  | decreasingHint
deriving DecidableEq, Repr

/-- Go: `func order2_func(data lessSwap, a, b int, swaps *int) (int, int)`; the counter is
returned as third component. -/
def order2_func (data : List Duck) (a b swaps : Nat) : Nat × Nat × Nat :=
  if Less data b a = true then (b, a, swaps + 1) else (a, b, swaps)

/-- Go: `func median_func(data lessSwap, a, b, c int, swaps *int) int`. -/
def median_func (data : List Duck) (a b c swaps : Nat) : Nat × Nat :=
  let r1 := order2_func data a b swaps
  let r2 := order2_func data r1.2.1 c r1.2.2
  let r3 := order2_func data r1.1 r2.1 r2.2.2
  (r3.2.1, r3.2.2)

/-- Go: `func medianAdjacent_func(data lessSwap, a int, swaps *int) int`. -/
def medianAdjacent_func (data : List Duck) (a swaps : Nat) : Nat × Nat :=
  median_func data (a - 1) a (a + 1) swaps

/-- Go: `func choosePivot_func(data lessSwap, a, b int) (pivot int, hint sortedHint)`,
`shortestNinther = 50`, `maxSwaps = 4 * 3`. -/
def choosePivot_func (data : List Duck) (a b : Nat) : Nat × sortedHint :=
  let l := b - a
  let i := a + l / 4 * 1
  let j := a + l / 4 * 2
  let k := a + l / 4 * 3
  let r : Nat × Nat :=
    if l ≥ 8 then
      if l ≥ 50 then
        let ri := medianAdjacent_func data i 0
        let rj := medianAdjacent_func data j ri.2
        let rk := medianAdjacent_func data k rj.2
        median_func data ri.1 rj.1 rk.1 rk.2
      else median_func data i j k 0
    else (j, 0)
  if r.2 = 0 then (r.1, sortedHint.increasingHint)
  else if r.2 = 4 * 3 then (r.1, sortedHint.decreasingHint)
  else (r.1, sortedHint.unknownHint)

/-- Go: the loop `for i < j { data.Swap(i, j); i++; j-- }` of `reverseRange_func`. -/
def reverseLoop : Nat → Nat → Nat → List Duck → List Duck
  | 0, _, _, data => data
  | n + 1, i, j, data =>
    if i < j then reverseLoop n (i + 1) (j - 1) (swapAt data i j) else data

/-- Go: `func reverseRange_func(data lessSwap, a, b int)`. -/
def reverseRange_func (data : List Duck) (a b : Nat) : List Duck :=
  reverseLoop (b - a) a (b - 1) data

/-- Go: `func pdqsort_func(data lessSwap, a, b, limit int)`, `maxInsertion = 12`.  One
unfolding is one iteration of the `for` loop; the recursive call on the smaller side starts
with both flags `true`, the continuation of the loop keeps the updated flags.  `none` when
`fuel` iterations did not suffice. -/
def pdqsort_func (xorshift : Nat → Nat → Nat) :
    Nat → List Duck → Nat → Nat → Nat → Bool → Bool → Option (List Duck)
  | 0, _, _, _, _, _, _ => none
  | fuel + 1, data, a, b, limit, wasBalanced, wasPartitioned =>
    let length := b - a
    if length ≤ 12 then some (insertionSort_func data a b)
    else if limit = 0 then some (heapSort_func data a b)
    else
      let data := if wasBalanced = false then breakPatterns_func xorshift data a b else data
      let limit := if wasBalanced = false then limit - 1 else limit
      let ph := choosePivot_func data a b
      let reversed : Bool := decide (ph.2 = sortedHint.decreasingHint)
      let data := if reversed = true then reverseRange_func data a b else data
      let pivot := if reversed = true then (b - 1) - (ph.1 - a) else ph.1
      let hint := if reversed = true then sortedHint.increasingHint else ph.2
      let tryPartial : Bool :=
        wasBalanced && wasPartitioned && decide (hint = sortedHint.increasingHint)
      let pr := if tryPartial = true then partialInsertionSort_func data a b else (data, false)
      if pr.2 = true then some pr.1
      else
        let data := pr.1
        if a > 0 ∧ Less data (a - 1) pivot = false then
          let pe := partitionEqual_func data a b pivot
          pdqsort_func xorshift fuel pe.1 pe.2 b limit wasBalanced wasPartitioned
        else
          let pt := partition_func data a b pivot
          let data := pt.1
          let mid := pt.2.1
          let wasPartitioned := pt.2.2
          let leftLen := mid - a
          let rightLen := b - mid
          let balanceThreshold := length / 8
          if leftLen < rightLen then
            let wasBalanced : Bool := decide (leftLen ≥ balanceThreshold)
            match pdqsort_func xorshift fuel data a mid limit true true with
            | none => none
            | some data =>
              pdqsort_func xorshift fuel data (mid + 1) b limit wasBalanced wasPartitioned
          else
            let wasBalanced : Bool := decide (rightLen ≥ balanceThreshold)
            match pdqsort_func xorshift fuel data (mid + 1) b limit true true with
            | none => none
            | some data =>
              pdqsort_func xorshift fuel data a mid limit wasBalanced wasPartitioned

/-- Go: `func Slice(x any, less func(i, j int) bool)` at the closure of `main.go`:
`pdqsort_func(lessSwap{less, swap}, 0, length, bits.Len(uint(length)))`.  The loop of
`pdqsort_func` shortens the range in every iteration, so `length + 1` iterations suffice. -/
def sortSlice (xorshift : Nat → Nat → Nat) (ducks : List Duck) : Option (List Duck) :=
  pdqsort_func xorshift (ducks.length + 1) ducks 0 ducks.length (bitsLen ducks.length)
    true true

/-! ## Leaderboard and result -/

/-- The slice `l2` arises from `l1` by swaps of elements with indices in `[a, b)`. -/
inductive Reach (a b : Nat) : List Duck → List Duck → Prop where
  | refl (l : List Duck) : Reach a b l l
  | step {l1 l2 : List Duck} (i j : Nat) :
      Reach a b l1 l2 → a ≤ i → i < b → a ≤ j → j < b → Reach a b l1 (swapAt l2 i j)

/-- The slice `l2` arises from `l1` by swaps of neighbours with different positions. -/
inductive StableReach : List Duck → List Duck → Prop where
  | refl (l : List Duck) : StableReach l l
  | step {l1 l2 : List Duck} (j : Nat) :
      StableReach l1 l2 → j + 1 < l2.length → key l2 (j + 1) ≠ key l2 j →
      StableReach l1 (swapAt l2 (j + 1) j)

/-- Heap order of `siftDown_func` on the nodes from `lo` on: no node's key exceeds the key of
a child below `hi` (node `p` has the children `2p + 1` and `2p + 2`, stored at offset
`first`). -/
def HeapFrom (first lo hi : Nat) (data : List Duck) : Prop :=
  ∀ p c, lo ≤ p → c < hi → (c = 2 * p + 1 ∨ c = 2 * p + 2) →
    key data (first + p) ≤ key data (first + c)

/-- Heap order on the nodes from `lo` on except at node `r`, whose parent is nevertheless in
order with the children of `r`. -/
def HeapExcept (first lo hi r : Nat) (data : List Duck) : Prop :=
  (∀ p c, lo ≤ p → p ≠ r → c < hi → (c = 2 * p + 1 ∨ c = 2 * p + 2) →
    key data (first + p) ≤ key data (first + c)) ∧
  (∀ p c, lo ≤ p → (r = 2 * p + 1 ∨ r = 2 * p + 2) → c < hi →
    (c = 2 * r + 1 ∨ c = 2 * r + 2) → key data (first + p) ≤ key data (first + c))

/-- The keys of `data[a:b]` are in descending order. -/
def SortedOn (a b : Nat) (data : List Duck) : Prop :=
  ∀ x y, a ≤ x → x < y → y < b → key data y ≤ key data x

/-- A ranking of `ducks`: the same participants, ordered by descending position. -/
def IsRanking (ducks ranked : List Duck) : Prop :=
  ranked.Perm ducks ∧ ranked.Pairwise (fun d e => d.Position ≥ e.Position)

/-- A ranking keeps ties in input order: for every position value, the participants at that
position appear in the ranking in the same order as in the input. -/
def KeepsTieOrder (ducks ranked : List Duck) : Prop :=
  ∀ p : Int, ranked.filter (fun d => decide (d.Position = p)) =
    ducks.filter (fun d => decide (d.Position = p))

/-- The first participant in input order whose position is the maximum over all
participants. -/
def firstAtMax (ducks : List Duck) : Option Duck :=
  ducks.find? (fun d => ducks.all (fun e => decide (e.Position ≤ d.Position)))

/-- Thirteen participants after a first tick in which only the last one moved. -/
def thirteenDucks : List Duck :=
  [⟨"a", 0, 1⟩, ⟨"b", 0, 1⟩, ⟨"c", 0, 1⟩, ⟨"d", 0, 1⟩, ⟨"e", 0, 1⟩, ⟨"f", 0, 1⟩, ⟨"g", 0, 1⟩,
   ⟨"h", 0, 1⟩, ⟨"i", 0, 1⟩, ⟨"j", 0, 1⟩, ⟨"k", 0, 1⟩, ⟨"l", 0, 1⟩, ⟨"m", 3, 1⟩]

/-- Thirteen participants at the timeout, none at the finish line, the first and the third
sharing the lead. -/
def tiedLeaders : List Duck :=
  [⟨"a", 44, 70⟩, ⟨"b", 30, 70⟩, ⟨"c", 44, 70⟩, ⟨"d", 30, 70⟩, ⟨"e", 30, 70⟩, ⟨"f", 30, 70⟩,
   ⟨"g", 30, 70⟩, ⟨"h", 30, 70⟩, ⟨"i", 30, 70⟩, ⟨"j", 30, 70⟩, ⟨"k", 30, 70⟩, ⟨"l", 30, 70⟩,
   ⟨"m", 30, 70⟩]

/-- Go: `medals := []string{"🥇", "🥈", "🥉"}`. -/
def medals : List String := ["🥇", "🥈", "🥉"]

/-- Go: one line of the ranking, `fmt.Printf("%s %s %s\n", getOrdinal(rank+1), medal,
duck.Name)`. -/
def rankLine (rank : Nat) (duck : Duck) : String :=
  let medal := if rank < medals.length then medals.getD rank "  " else "  "
  getOrdinal ((rank : Int) + 1) ++ " " ++ medal ++ " " ++ duck.Name ++ "\n"

/-- Go: `for rank, duck := range sortedDucks { ... }`, the lines from index `rank` on. -/
def rankLines : Nat → List Duck → List String
  | _, [] => []
  | rank, duck :: rest => rankLine rank duck :: rankLines (rank + 1) rest

/-- Go: the "Current Positions" block of a frame: copy the ducks, `sort.Slice` the copy,
print the ranking.  Returns the ranked ducks and the printed lines. -/
def leaderboard (xorshift : Nat → Nat → Nat) (ducks : List Duck) :
    Option (List Duck × List String) :=
  (sortSlice xorshift ducks).map (fun sortedDucks => (sortedDucks, rankLines 0 sortedDucks))

/-- Go: the `else` branch after the loop: `sort.Slice(ducks, ...)`, print the final
standings, and `if len(ducks) > 0` name `ducks[0]` as winner by distance.  Returns the ranked
ducks, the printed ranking lines and the name printed as winner by distance, if any. -/
def timeoutResult (xorshift : Nat → Nat → Nat) (ducks : List Duck) :
    Option (List Duck × List String × Option String) :=
  (sortSlice xorshift ducks).map
    (fun ducks => (ducks, rankLines 0 ducks, ducks.head?.map (fun d => d.Name)))

end DuckRace

namespace DuckRace


/-! ### Splitting -/

theorem indexComma_none {s : List Char} (h : indexComma s = none) : ',' ∉ s := by
  induction s with
  | nil => simp
  | cons c cs ih =>
    unfold indexComma at h
    split at h
    · simp at h
    · rename_i hc
      simp only [Option.map_eq_none'] at h
      simp only [List.mem_cons, not_or]
      exact ⟨fun e => hc e.symm, ih h⟩

theorem indexComma_some {s : List Char} {m : Nat} (h : indexComma s = some m) :
    s = s.take m ++ ',' :: s.drop (m + 1) ∧ ',' ∉ s.take m := by
  induction s generalizing m with
  | nil => simp [indexComma] at h
  | cons c cs ih =>
    unfold indexComma at h
    split at h
    · rename_i hc
      simp only [Option.some.injEq] at h
      subst h; subst hc
      simp
    · rename_i hc
      simp only [Option.map_eq_some'] at h
      obtain ⟨k, hk, rfl⟩ := h
      obtain ⟨h1, h2⟩ := ih hk
      refine ⟨?_, ?_⟩
      · simp only [List.take_succ_cons, List.drop_succ_cons, List.cons_append]
        exact congrArg _ h1
      · simp only [List.take_succ_cons, List.mem_cons, not_or]
        exact ⟨fun e => hc e.symm, h2⟩

theorem genSplit_intercalate (n : Nat) (s : List Char) :
    List.intercalate [','] (genSplit n s) = s := by
  induction n generalizing s with
  | zero => simp [genSplit, List.intercalate]
  | succ n ih =>
    unfold genSplit
    split
    · simp [List.intercalate]
    · rename_i m hm
      have hs := (indexComma_some hm).1
      have hne : genSplit n (s.drop (m + 1)) ≠ [] := by
        cases n <;> (unfold genSplit; try split) <;> simp
      obtain ⟨x, xs, hx⟩ := List.exists_cons_of_ne_nil hne
      have := ih (s.drop (m + 1))
      rw [hx] at this ⊢
      simp only [List.intercalate, List.intersperse] at this ⊢
      simp only [List.flatten_cons, this]
      simpa using hs.symm

theorem genSplit_no_comma (n : Nat) (s : List Char) (h : countComma s ≤ n) :
    ∀ t ∈ genSplit n s, ',' ∉ t := by
  induction n generalizing s with
  | zero =>
    intro t ht
    simp only [genSplit, List.mem_singleton] at ht
    subst ht
    have : List.count ',' t = 0 := by simpa [countComma] using h
    exact List.count_eq_zero.mp this
  | succ n ih =>
    intro t ht
    unfold genSplit at ht
    split at ht
    · rename_i hnone
      simp only [List.mem_singleton] at ht
      subst ht
      exact indexComma_none hnone
    · rename_i m hm
      obtain ⟨hs, hno⟩ := indexComma_some hm
      simp only [List.mem_cons] at ht
      rcases ht with rfl | ht
      · exact hno
      · refine ih _ ?_ t ht
        have hc : countComma s = countComma (s.take m) + (1 + countComma (s.drop (m + 1))) := by
          conv_lhs => rw [hs]
          simp [countComma, List.count_cons]
          omega
        omega

theorem cleanLoop_eq (names acc : List String) :
    cleanLoop names acc = acc ++ (names.map TrimSpace).filter (fun t => t ≠ "") := by
  induction names generalizing acc with
  | nil => simp [cleanLoop]
  | cons name rest ih =>
    unfold cleanLoop
    by_cases h : TrimSpace name = ""
    · simp [h, ih]
    · simp [h, ih]

theorem cleanNames_eq_spec (flag : String) :
    cleanLoop (Split flag) [] = trimmedTokensSpec flag := by
  rw [cleanLoop_eq]; simp [trimmedTokensSpec]

/-- C4, parser result: for every non-empty value of the flag, the names computed by
`parseArgs` are the tokens of the value split at its commas, each trimmed of surrounding
whitespace, without the tokens that are then empty, in their original order and with
duplicates kept; joining the tokens of the split with commas gives back the value and no
token holds a comma; and when the list of names is non-empty, `parseArgs` returns it as
`Names` with no error. -/
theorem C4_parseArgs_names (namesFlag : String) (hne : namesFlag ≠ "") :
    cleanLoop (Split namesFlag) [] = trimmedTokensSpec namesFlag ∧
    (List.intercalate [','] ((Split namesFlag).map String.data) = namesFlag.data ∧
      ∀ t ∈ Split namesFlag, ',' ∉ t.data) ∧
    (trimmedTokensSpec namesFlag ≠ [] →
      parseArgs namesFlag = Except.ok { Duration := 0, Names := trimmedTokensSpec namesFlag }) := by
  refine ⟨cleanNames_eq_spec _, ⟨?_, ?_⟩, ?_⟩
  · have : (Split namesFlag).map String.data = genSplit (countComma namesFlag.data) namesFlag.data := by
      simp [Split, Function.comp_def]
    rw [this, genSplit_intercalate]
  · intro t ht
    simp only [Split, List.mem_map] at ht
    obtain ⟨u, hu, rfl⟩ := ht
    exact genSplit_no_comma _ _ (le_refl _) u hu
  · intro h
    unfold parseArgs
    rw [if_neg hne]
    simp only [cleanNames_eq_spec]
    rw [if_neg]
    simpa using h

/-- C4 at a flag value with padded, empty and repeated tokens. -/
theorem C4_parseArgs_names_witness :
    " alice , bob,, alice " ≠ "" ∧
    parseArgs " alice , bob,, alice " = Except.ok { Duration := 0, Names := ["alice", "bob", "alice"] } :=
  ⟨by decide, by
    have h := (C4_parseArgs_names " alice , bob,, alice " (by decide)).2.2
    have e : trimmedTokensSpec " alice , bob,, alice " = ["alice", "bob", "alice"] := by decide
    rw [e] at h
    exact h (by decide)⟩

/-- C5, parser failure: `parseArgs` returns an error, and then no configuration, exactly when
the flag value is empty or every comma-separated token of it is empty after trimming; the
input of two blanks, a comma and two blanks fails; every input with a non-blank token
succeeds. -/
theorem C5_parseArgs_error (namesFlag : String) :
    ((∃ e, parseArgs namesFlag = Except.error e) ↔
      (namesFlag = "" ∨ ∀ t ∈ Split namesFlag, TrimSpace t = "")) ∧
    ((∃ e, parseArgs namesFlag = Except.error e) ↔ ¬ ∃ cfg, parseArgs namesFlag = Except.ok cfg) ∧
    (∃ e, parseArgs "  ,  " = Except.error e) ∧
    ((∃ t ∈ Split namesFlag, TrimSpace t ≠ "") → ∃ cfg, parseArgs namesFlag = Except.ok cfg) := by
  have hall : trimmedTokensSpec namesFlag = [] ↔ ∀ t ∈ Split namesFlag, TrimSpace t = "" := by
    simp [trimmedTokensSpec, List.filter_eq_nil_iff]
  have hempty : namesFlag = "" → ∀ t ∈ Split namesFlag, TrimSpace t = "" := by
    intro h; subst h; decide
  have key : (∃ e, parseArgs namesFlag = Except.error e) ↔
      (namesFlag = "" ∨ ∀ t ∈ Split namesFlag, TrimSpace t = "") := by
    unfold parseArgs
    by_cases h1 : namesFlag = ""
    · simp [h1]
    · rw [if_neg h1]
      simp only [cleanNames_eq_spec, h1, false_or]
      by_cases h2 : trimmedTokensSpec namesFlag = []
      · simpa [h2] using hall.mp h2
      · have : ¬ ∀ t ∈ Split namesFlag, TrimSpace t = "" := fun h => h2 (hall.mpr h)
        simp [h2, this]
  refine ⟨key, ?_, ⟨_, rfl⟩, ?_⟩
  · cases h : parseArgs namesFlag <;> simp
  · rintro ⟨t, ht, hne⟩
    cases h : parseArgs namesFlag with
    | ok cfg => exact ⟨cfg, rfl⟩
    | error e =>
      rcases key.mp ⟨e, h⟩ with h1 | h1
      · exact absurd (hempty h1 t ht) hne
      · exact absurd (h1 t ht) hne


/-! ### The tick loop -/

theorem finishLine_eq : finishLine = 45 := by decide

theorem updateDuck_name (dr : Draw) (d : Duck) : (updateDuck dr d).Name = d.Name := by
  unfold updateDuck
  dsimp only
  split_ifs <;> rfl

theorem updateDuck_position (dr : Draw) (d : Duck) :
    (updateDuck dr d).Position =
      if dr.moves = true then min (d.Position + ((dr.intn.val : Int) + 1)) finishLine
      else d.Position := by
  unfold updateDuck
  by_cases hm : dr.moves = true
  · simp only [hm, if_true]
    by_cases h : d.Position + ((dr.intn.val : Int) + 1) > finishLine
    · simp only [h, if_true]
      rw [min_eq_right (le_of_lt h)]
    · simp only [h, if_false]
      rw [min_eq_left (not_lt.mp h)]
  · simp [hm]

theorem updateDuck_frame (dr : Draw) (d : Duck) :
    (updateDuck dr d).AnimationFrame = d.AnimationFrame + 1 := by
  unfold updateDuck
  dsimp only
  split_ifs <;> rfl

theorem updateDuck_bounds (dr : Draw) (d : Duck) (h : d.Position ≤ finishLine) :
    d.Position ≤ (updateDuck dr d).Position ∧ (updateDuck dr d).Position ≤ finishLine := by
  rw [updateDuck_position]
  rw [finishLine_eq] at h ⊢
  have := dr.intn.isLt
  split
  · constructor
    · rw [le_min_iff]; omega
    · exact min_le_right _ _
  · exact ⟨le_refl _, h⟩

theorem tickLoop_ducks (rnd : Nat → Draw) (i : Nat) (ducks : List Duck) (w : String) :
    (tickLoop rnd i ducks w).1 = updatedDucks rnd i ducks := by
  induction ducks generalizing i w with
  | nil => rfl
  | cons d rest ih => simp only [tickLoop, updatedDucks, ih]

theorem updatedDucks_forall₂ (rnd : Nat → Draw) (i : Nat) (ducks : List Duck) :
    List.Forall₂ (fun d d' => ∃ dr, d' = updateDuck dr d) ducks (updatedDucks rnd i ducks) := by
  induction ducks generalizing i with
  | nil => exact List.Forall₂.nil
  | cons d rest ih => exact List.Forall₂.cons ⟨_, rfl⟩ (ih _)

theorem updatedDucks_mem (rnd : Nat → Draw) (i : Nat) (ducks : List Duck) (d' : Duck)
    (h : d' ∈ updatedDucks rnd i ducks) : ∃ d ∈ ducks, ∃ dr, d' = updateDuck dr d := by
  induction ducks generalizing i with
  | nil => simp [updatedDucks] at h
  | cons d rest ih =>
    simp only [updatedDucks, List.mem_cons] at h
    rcases h with rfl | h
    · exact ⟨d, List.mem_cons_self _ _, _, rfl⟩
    · obtain ⟨e, he, dr, hdr⟩ := ih _ h
      exact ⟨e, List.mem_cons_of_mem _ he, dr, hdr⟩

theorem updatedDucks_names (rnd : Nat → Draw) (i : Nat) (ducks : List Duck) :
    (updatedDucks rnd i ducks).map Duck.Name = ducks.map Duck.Name := by
  induction ducks generalizing i with
  | nil => rfl
  | cons d rest ih => simp only [updatedDucks, List.map_cons, ih, updateDuck_name]

theorem tickLoop_winner (rnd : Nat → Draw) (i : Nat) (ducks : List Duck) (w : String)
    (hn : ∀ d ∈ ducks, d.Name ≠ "") :
    (tickLoop rnd i ducks w).2 =
      if w = "" then ((firstFinisher (updatedDucks rnd i ducks)).map Duck.Name).getD ""
      else w := by
  induction ducks generalizing i w with
  | nil => by_cases h : w = "" <;> simp [tickLoop, updatedDucks, firstFinisher, h]
  | cons d rest ih =>
    have hrest : ∀ e ∈ rest, e.Name ≠ "" := fun e he => hn e (List.mem_cons_of_mem _ he)
    have hd : (updateDuck (rnd i) d).Name ≠ "" := by
      rw [updateDuck_name]; exact hn d (List.mem_cons_self _ _)
    simp only [tickLoop, updatedDucks, firstFinisher, List.find?_cons]
    rw [ih _ _ hrest]
    by_cases hw : w = ""
    · by_cases hp : (updateDuck (rnd i) d).Position ≥ finishLine
      · simp [hw, hp, hd]
      · simp [hw, hp, firstFinisher]
    · simp [hw]

theorem tick_ducks (rnd : Nat → Draw) (st : RaceState) :
    (tick rnd st).ducks = updatedDucks rnd 0 st.ducks := by
  simp only [tick, tickLoop_ducks]

theorem tick_names (rnd : Nat → Draw) (st : RaceState) :
    (tick rnd st).ducks.map Duck.Name = st.ducks.map Duck.Name := by
  rw [tick_ducks, updatedDucks_names]

theorem firstFinisher_some {ducks : List Duck} {d : Duck} (h : firstFinisher ducks = some d) :
    d ∈ ducks ∧ d.Position ≥ finishLine := by
  unfold firstFinisher at h
  exact ⟨List.mem_of_find?_eq_some h, by simpa using List.find?_some h⟩

theorem firstFinisher_none {ducks : List Duck} (h : firstFinisher ducks = none) :
    ∀ d ∈ ducks, d.Position < finishLine := by
  unfold firstFinisher at h
  intro d hd
  have := List.find?_eq_none.mp h d hd
  simpa using this

theorem tick_winner_eq (rnd : Nat → Draw) (st : RaceState)
    (hnames : ∀ d ∈ st.ducks, d.Name ≠ "") :
    (tick rnd st).winner =
      if st.winner = "" then ((firstFinisher (tick rnd st).ducks).map Duck.Name).getD ""
      else st.winner := by
  rw [tick_ducks]
  exact tickLoop_winner rnd 0 st.ducks st.winner hnames

theorem tick_names_ne (rnd : Nat → Draw) (st : RaceState)
    (hnames : ∀ d ∈ st.ducks, d.Name ≠ "") : ∀ d ∈ (tick rnd st).ducks, d.Name ≠ "" := by
  intro d hmem
  have : d.Name ∈ (tick rnd st).ducks.map Duck.Name := List.mem_map_of_mem _ hmem
  rw [tick_names] at this
  obtain ⟨e, he, hee⟩ := List.mem_map.mp this
  rw [← hee]; exact hnames e he

/-- C1, Winner rule of the tick loop: for participants with non-empty names (the only ones
`parseArgs` lets through), a tick that starts with no winner recorded ends with the name of
the first participant in list order whose updated position has reached `finishLine = 45`,
or with no winner when no participant has reached it; a tick that starts with a recorded
winner leaves it unchanged. -/
theorem C1_winner_rule (rnd : Nat → Draw) (st : RaceState)
    (hnames : ∀ d ∈ st.ducks, d.Name ≠ "") :
    finishLine = 45 ∧
    (st.winner = "" →
      (∀ d, firstFinisher (tick rnd st).ducks = some d →
        (tick rnd st).winner = d.Name ∧ (tick rnd st).winner ≠ "") ∧
      (firstFinisher (tick rnd st).ducks = none → (tick rnd st).winner = "")) ∧
    (st.winner ≠ "" → (tick rnd st).winner = st.winner) := by
  have hw := tick_winner_eq rnd st hnames
  refine ⟨finishLine_eq, ?_, ?_⟩
  · intro h0
    rw [if_pos h0] at hw
    refine ⟨?_, ?_⟩
    · intro d hf
      rw [hf] at hw
      simp only [Option.map_some', Option.getD_some] at hw
      exact ⟨hw, by rw [hw]; exact tick_names_ne rnd st hnames d (firstFinisher_some hf).1⟩
    · intro hf
      rw [hf] at hw
      simpa using hw
  · intro h1
    rw [if_neg h1] at hw
    exact hw


/-! ### The race -/

theorem parseArgs_ok_names {flag : String} {cfg : RaceConfig}
    (h : parseArgs flag = Except.ok cfg) :
    cfg.Names ≠ [] ∧ ∀ n ∈ cfg.Names, n ≠ "" := by
  unfold parseArgs at h
  split at h
  · cases h
  · simp only at h
    split at h
    · cases h
    · rename_i hlen
      injection h with h
      subst h
      simp only [cleanLoop_eq, List.nil_append] at hlen ⊢
      refine ⟨fun e => hlen (by rw [e]; rfl), ?_⟩
      intro n hn
      simpa using (List.mem_filter.mp hn).2

theorem updatedDucks_mem_of (rnd : Nat → Draw) (i : Nat) (ducks : List Duck) (d : Duck)
    (h : d ∈ ducks) : ∃ dr, updateDuck dr d ∈ updatedDucks rnd i ducks := by
  induction ducks generalizing i with
  | nil => simp at h
  | cons e rest ih =>
    simp only [List.mem_cons] at h
    rcases h with rfl | h
    · exact ⟨rnd i, List.mem_cons_self _ _⟩
    · obtain ⟨dr, hdr⟩ := ih (i + 1) h
      exact ⟨dr, List.mem_cons_of_mem _ hdr⟩

theorem updatedDucks_mem_rnd (rnd : Nat → Draw) (i : Nat) (ducks : List Duck) (d' : Duck)
    (h : d' ∈ updatedDucks rnd i ducks) : ∃ d ∈ ducks, ∃ k, d' = updateDuck (rnd k) d := by
  induction ducks generalizing i with
  | nil => simp [updatedDucks] at h
  | cons d rest ih =>
    simp only [updatedDucks, List.mem_cons] at h
    rcases h with rfl | h
    · exact ⟨d, List.mem_cons_self _ _, i, rfl⟩
    · obtain ⟨e, he, k, hk⟩ := ih _ h
      exact ⟨e, List.mem_cons_of_mem _ he, k, hk⟩

theorem updatedDucks_mono (rnd : Nat → Draw) (i : Nat) (ducks : List Duck)
    (h : ∀ d ∈ ducks, d.Position ≤ finishLine) :
    List.Forall₂ (fun d d' => d'.Name = d.Name ∧ d.Position ≤ d'.Position)
      ducks (updatedDucks rnd i ducks) := by
  induction ducks generalizing i with
  | nil => exact List.Forall₂.nil
  | cons d rest ih =>
    exact List.Forall₂.cons
      ⟨updateDuck_name _ _, (updateDuck_bounds _ d (h d (List.mem_cons_self _ _))).1⟩
      (ih _ (fun e he => h e (List.mem_cons_of_mem _ he)))

theorem tick_position_bounds (rnd : Nat → Draw) (st : RaceState)
    (h : ∀ d ∈ st.ducks, 0 ≤ d.Position ∧ d.Position ≤ finishLine) :
    ∀ d ∈ (tick rnd st).ducks, 0 ≤ d.Position ∧ d.Position ≤ finishLine := by
  intro d' hd'
  rw [tick_ducks] at hd'
  obtain ⟨d, hd, dr, rfl⟩ := updatedDucks_mem rnd 0 st.ducks d' hd'
  have hb := updateDuck_bounds dr d (h d hd).2
  exact ⟨le_trans (h d hd).1 hb.1, hb.2⟩

theorem ticks_position_bounds (rnd : Nat → Nat → Draw) (names : List String) (n : Nat) :
    ∀ d ∈ (ticks rnd n (initState names)).ducks, 0 ≤ d.Position ∧ d.Position ≤ finishLine := by
  induction n with
  | zero =>
    intro d hd
    simp only [ticks, initState, makeDucks, List.mem_map] at hd
    obtain ⟨nm, _, rfl⟩ := hd
    simp [NewDuck, finishLine_eq]
  | succ n ih => exact tick_position_bounds _ _ ih

theorem ticks_names (rnd : Nat → Nat → Draw) (names : List String) (n : Nat) :
    (ticks rnd n (initState names)).ducks.map Duck.Name = names := by
  induction n with
  | zero => simp [ticks, initState, makeDucks, Function.comp_def, NewDuck]
  | succ n ih => simp only [ticks, tick_names, ih]

theorem raceInv_init (names : List String) (h : ∀ n ∈ names, n ≠ "") :
    RaceInv (initState names) := by
  refine ⟨?_, ?_, ?_⟩
  · intro d hd
    simp only [initState, makeDucks, List.mem_map] at hd
    obtain ⟨nm, hnm, rfl⟩ := hd
    exact ⟨h nm hnm, by simp [NewDuck, finishLine_eq]⟩
  · intro _ d hd
    simp only [initState, makeDucks, List.mem_map] at hd
    obtain ⟨nm, hnm, rfl⟩ := hd
    simp [NewDuck, finishLine_eq]
  · intro hw
    exact absurd rfl hw

theorem raceInv_tick (rnd : Nat → Draw) (st : RaceState) (h : RaceInv st) :
    RaceInv (tick rnd st) := by
  obtain ⟨h1, h2, h3⟩ := h
  have hnames : ∀ d ∈ st.ducks, d.Name ≠ "" := fun d hd => (h1 d hd).1
  have hw := tickLoop_winner rnd 0 st.ducks st.winner hnames
  have hw' : (tick rnd st).winner =
      if st.winner = "" then ((firstFinisher (tick rnd st).ducks).map Duck.Name).getD ""
      else st.winner := by
    rw [tick_ducks]; exact hw
  have hall : ∀ d ∈ (tick rnd st).ducks, d.Name ≠ "" ∧ 0 ≤ d.Position ∧ d.Position ≤ finishLine := by
    intro d' hd'
    refine ⟨?_, tick_position_bounds rnd st (fun d hd => (h1 d hd).2) d' hd'⟩
    rw [tick_ducks] at hd'
    obtain ⟨d, hd, dr, rfl⟩ := updatedDucks_mem rnd 0 st.ducks d' hd'
    rw [updateDuck_name]; exact hnames d hd
  refine ⟨hall, ?_, ?_⟩
  · intro hempty
    by_cases hw0 : st.winner = ""
    · rw [if_pos hw0] at hw'
      cases hf : firstFinisher (tick rnd st).ducks with
      | none => exact firstFinisher_none hf
      | some d =>
        rw [hf] at hw'
        simp only [Option.map_some', Option.getD_some] at hw'
        exact absurd (hw'.symm.trans hempty) (hall d (firstFinisher_some hf).1).1
    · rw [if_neg hw0] at hw'
      exact absurd (hw'.symm.trans hempty) hw0
  · intro hne
    by_cases hw0 : st.winner = ""
    · rw [if_pos hw0] at hw'
      cases hf : firstFinisher (tick rnd st).ducks with
      | none =>
        rw [hf] at hw'
        exact absurd hw' hne
      | some d =>
        rw [hf] at hw'
        simp only [Option.map_some', Option.getD_some] at hw'
        obtain ⟨hm, hp⟩ := firstFinisher_some hf
        exact ⟨d, hm, hw'.symm, le_antisymm (hall d hm).2.2 hp⟩
    · rw [if_neg hw0] at hw'
      obtain ⟨d, hd, hdn, hdp⟩ := h3 hw0
      obtain ⟨dr, hdr⟩ := updatedDucks_mem_of rnd 0 st.ducks d hd
      rw [← tick_ducks] at hdr
      refine ⟨_, hdr, ?_, ?_⟩
      · rw [updateDuck_name, hdn, hw']
      · have hb := updateDuck_bounds dr d (le_of_eq hdp)
        exact le_antisymm hb.2 (hdp ▸ hb.1)

theorem raceInv_ticks (rnd : Nat → Nat → Draw) (names : List String)
    (h : ∀ n ∈ names, n ≠ "") (n : Nat) : RaceInv (ticks rnd n (initState names)) := by
  induction n with
  | zero => exact raceInv_init names h
  | succ n ih => exact raceInv_tick _ _ ih

theorem raceInv_winner_iff {st : RaceState} (h : RaceInv st) :
    st.winner ≠ "" ↔ ∃ d ∈ st.ducks, d.Position = finishLine := by
  obtain ⟨_, h2, h3⟩ := h
  constructor
  · intro hne
    obtain ⟨d, hd, _, hp⟩ := h3 hne
    exact ⟨d, hd, hp⟩
  · rintro ⟨d, hd, hp⟩ hw
    exact absurd hp (ne_of_lt (h2 hw d hd))

/-- C2, Position invariant: starting from the ducks of `NewDuck` (position 0), for every
number of ticks and every sequence of draws, every position lies between 0 and
`finishLine = 45`, and the next tick leaves every duck's position greater than or equal to
what it was. -/
theorem C2_position_invariant (rnd : Nat → Nat → Draw) (names : List String) (n : Nat) :
    finishLine = 45 ∧
    (∀ d ∈ (ticks rnd 0 (initState names)).ducks, d.Position = 0) ∧
    (∀ d ∈ (ticks rnd n (initState names)).ducks, 0 ≤ d.Position ∧ d.Position ≤ finishLine) ∧
    List.Forall₂ (fun d d' => d'.Name = d.Name ∧ d.Position ≤ d'.Position)
      (ticks rnd n (initState names)).ducks (ticks rnd (n + 1) (initState names)).ducks := by
  refine ⟨finishLine_eq, ?_, ticks_position_bounds rnd names n, ?_⟩
  · intro d hd
    simp only [ticks, initState, makeDucks, List.mem_map] at hd
    obtain ⟨nm, _, rfl⟩ := hd
    rfl
  · show List.Forall₂ _ _ (tick (rnd n) (ticks rnd n (initState names))).ducks
    rw [tick_ducks]
    exact updatedDucks_mono _ _ _ (fun d hd => (ticks_position_bounds rnd names n d hd).2)

/-- C10, Soundness of the empty-string winner sentinel: for participants built from the
names returned by `parseArgs`, after any number of ticks under any draws, `winner` is
non-empty exactly when some duck stands at `finishLine = 45`; a recorded winner names a duck
whose position is 45; and on the tick in which a duck first reaches the finish line the exit
test `winner != ""` fails before the tick and succeeds after it. -/
theorem C10_winner_sentinel (flag : String) (cfg : RaceConfig)
    (hparse : parseArgs flag = Except.ok cfg) (rnd : Nat → Nat → Draw) (n : Nat) :
    finishLine = 45 ∧
    ((ticks rnd n (initState cfg.Names)).winner ≠ "" ↔
      ∃ d ∈ (ticks rnd n (initState cfg.Names)).ducks, d.Position = 45) ∧
    ((ticks rnd n (initState cfg.Names)).winner ≠ "" →
      ∃ d ∈ (ticks rnd n (initState cfg.Names)).ducks,
        d.Name = (ticks rnd n (initState cfg.Names)).winner ∧ d.Position = 45) ∧
    ((∀ d ∈ (ticks rnd n (initState cfg.Names)).ducks, d.Position ≠ 45) →
      (∃ d ∈ (ticks rnd (n + 1) (initState cfg.Names)).ducks, d.Position = 45) →
      (ticks rnd n (initState cfg.Names)).winner = "" ∧
      (ticks rnd (n + 1) (initState cfg.Names)).winner ≠ "") := by
  have hnames := (parseArgs_ok_names hparse).2
  have hinv := raceInv_ticks rnd cfg.Names hnames
  have hiff := fun k => raceInv_winner_iff (hinv k)
  simp only [finishLine_eq] at hiff
  refine ⟨finishLine_eq, hiff n, ?_, ?_⟩
  · intro hne
    have := (hinv n).2.2 hne
    simpa only [finishLine_eq] using this
  · intro hnone hsome
    refine ⟨?_, (hiff (n + 1)).mpr hsome⟩
    by_contra hne
    obtain ⟨d, hd, hp⟩ := (hiff n).mp hne
    exact hnone d hd hp

/-- C10 for the participants alice and bob after fifteen full-speed ticks. -/
theorem C10_winner_sentinel_witness :
    parseArgs "alice,bob" = Except.ok { Duration := 0, Names := ["alice", "bob"] } ∧
    ((ticks fullSpeed 15 (initState ["alice", "bob"])).winner ≠ "" ↔
      ∃ d ∈ (ticks fullSpeed 15 (initState ["alice", "bob"])).ducks, d.Position = 45) :=
  ⟨rfl, (C10_winner_sentinel "alice,bob" { Duration := 0, Names := ["alice", "bob"] } rfl
    fullSpeed 15).2.1⟩

/-- C1 at a tick in which alice, one step from the finish line, moves with speed 3. -/
theorem C1_winner_rule_witness :
    (∀ d ∈ [Duck.mk "alice" 44 7, Duck.mk "bob" 43 7], d.Name ≠ "") ∧
    (tick (fun _ => { moves := true, intn := 2 })
      { ducks := [Duck.mk "alice" 44 7, Duck.mk "bob" 43 7], winner := "" }).winner = "alice" :=
  ⟨by decide,
    ((C1_winner_rule (fun _ => { moves := true, intn := 2 })
      { ducks := [Duck.mk "alice" 44 7, Duck.mk "bob" 43 7], winner := "" } (by decide)).2.1
        rfl).1 (Duck.mk "alice" 45 8) (by decide) |>.1⟩


/-! ### The full-speed race -/

theorem ticks_succ (rnd : Nat → Nat → Draw) (n : Nat) (st : RaceState) :
    ticks rnd (n + 1) st = tick (rnd n) (ticks rnd n st) := rfl

theorem fullSpeed_positions (names : List String) (t : Nat) :
    ∀ d ∈ (ticks fullSpeed t (initState names)).ducks, d.Position = min (3 * (t : Int)) 45 := by
  induction t with
  | zero =>
    intro d hd
    simp only [ticks, initState, makeDucks, List.mem_map] at hd
    obtain ⟨nm, _, rfl⟩ := hd
    simp [NewDuck]
  | succ t ih =>
    intro d' hd'
    simp only [ticks, tick_ducks] at hd'
    obtain ⟨d, hd, k, rfl⟩ := updatedDucks_mem_rnd _ 0 _ d' hd'
    rw [updateDuck_position, ih d hd, finishLine_eq]
    simp only [fullSpeed, if_true]
    push_cast
    omega

theorem fullSpeed_winner_early (names : List String) (hn : ∀ n ∈ names, n ≠ "") (t : Nat)
    (ht : t ≤ 14) : (ticks fullSpeed t (initState names)).winner = "" := by
  by_contra hne
  obtain ⟨d, hd, _, hp⟩ := (raceInv_ticks fullSpeed names hn t).2.2 hne
  rw [fullSpeed_positions names t d hd, finishLine_eq] at hp
  omega

theorem fullSpeed_winner_15 (names : List String) (hn : ∀ n ∈ names, n ≠ "") :
    names.head? = some (ticks fullSpeed 15 (initState names)).winner ∨ names = [] := by
  cases names with
  | nil => exact Or.inr rfl
  | cons a rest =>
    left
    have h14 := fullSpeed_winner_early (a :: rest) hn 14 (le_refl _)
    have hnm : ∀ d ∈ (ticks fullSpeed 14 (initState (a :: rest))).ducks, d.Name ≠ "" :=
      fun d hd => ((raceInv_ticks fullSpeed (a :: rest) hn 14).1 d hd).1
    have hC1 := tick_winner_eq (fullSpeed 14) (ticks fullSpeed 14 (initState (a :: rest))) hnm
    rw [if_pos h14] at hC1
    have e15 : ticks fullSpeed 15 (initState (a :: rest)) =
        tick (fullSpeed 14) (ticks fullSpeed 14 (initState (a :: rest))) :=
      ticks_succ fullSpeed 14 _
    have hpos := fullSpeed_positions (a :: rest) 15
    have hnames := ticks_names fullSpeed (a :: rest) 15
    rw [e15] at hpos hnames ⊢
    generalize (tick (fullSpeed 14) (ticks fullSpeed 14 (initState (a :: rest)))) = S at *
    cases hS : S.ducks with
    | nil => rw [hS] at hnames; simp at hnames
    | cons d ds =>
      rw [hS] at hnames hpos hC1
      have hd : d.Position = 45 := by
        have := hpos d (List.mem_cons_self _ _)
        simpa using this
      have hf : firstFinisher (d :: ds) = some d := by
        simp [firstFinisher, List.find?_cons, hd, finishLine_eq]
      rw [hf] at hC1
      simp only [Option.map_some', Option.getD_some] at hC1
      simp only [List.map_cons, List.cons.injEq] at hnames
      simp only [List.head?_cons, Option.some.injEq]
      rw [hC1, hnames.1]

theorem raceLoop_fullSpeed (names : List String) (hn : ∀ n ∈ names, n ≠ "") (hne : names ≠ [])
    (timedOut : Nat → Bool) (hto : ∀ t, t < 14 → timedOut t = false) (fuel t : Nat)
    (ht : t ≤ 14) (hfuel : 15 ≤ fuel + t) :
    raceLoop fullSpeed timedOut fuel t (ticks fullSpeed t (initState names)) =
      some (ticks fullSpeed 15 (initState names), 15) := by
  induction fuel generalizing t with
  | zero => omega
  | succ fuel ih =>
    unfold raceLoop
    simp only [← ticks_succ]
    by_cases h14 : t = 14
    · subst h14
      have hw : (ticks fullSpeed 15 (initState names)).winner ≠ "" := by
        rcases fullSpeed_winner_15 names hn with h | h
        · intro he
          rw [he] at h
          cases names with
          | nil => exact hne rfl
          | cons a rest =>
            simp only [List.head?_cons, Option.some.injEq] at h
            exact hn a (List.mem_cons_self _ _) h
        · exact absurd h hne
      have e15 : ticks fullSpeed 15 (initState names) =
          tick (fullSpeed 14) (ticks fullSpeed 14 (initState names)) :=
        ticks_succ fullSpeed 14 _
      rw [e15] at hw ⊢
      rw [if_pos (Or.inl hw)]
    · have hlt : t < 14 := lt_of_le_of_ne ht h14
      have hw := fullSpeed_winner_early names hn (t + 1) (by omega)
      rw [if_neg (by simp [hw, hto t hlt])]
      exact ih (t + 1) (by omega) (by omega)

/-- C9, Deterministic full-speed race: when every duck moves on every tick with speed 3,
every position after tick `t` is `min (3 * t) 45`; through tick 14 no duck is at 45 and no
winner is recorded; after tick 15 all ducks are at 45 and the recorded winner is the first
name in list order; the loop breaks in its 15th iteration unless the clock ran out before;
for `-n alice,bob` the winner is "alice". -/
theorem C9_full_speed_race (flag : String) (cfg : RaceConfig)
    (hparse : parseArgs flag = Except.ok cfg) :
    (∀ t, ∀ d ∈ (ticks fullSpeed t (initState cfg.Names)).ducks,
      d.Position = min (3 * (t : Int)) 45) ∧
    (∀ t, (ticks fullSpeed t (initState cfg.Names)).ducks.map Duck.Name = cfg.Names) ∧
    (∀ t, t ≤ 14 → (ticks fullSpeed t (initState cfg.Names)).winner = "" ∧
      ∀ d ∈ (ticks fullSpeed t (initState cfg.Names)).ducks, d.Position ≠ 45) ∧
    (∀ d ∈ (ticks fullSpeed 15 (initState cfg.Names)).ducks, d.Position = 45) ∧
    cfg.Names.head? = some (ticks fullSpeed 15 (initState cfg.Names)).winner ∧
    (∀ timedOut : Nat → Bool, (∀ t, t < 14 → timedOut t = false) → ∀ fuel, 15 ≤ fuel →
      raceLoop fullSpeed timedOut fuel 0 (initState cfg.Names) =
        some (ticks fullSpeed 15 (initState cfg.Names), 15)) ∧
    (parseArgs "alice,bob" = Except.ok { Duration := 0, Names := ["alice", "bob"] } ∧
      (ticks fullSpeed 15 (initState ["alice", "bob"])).winner = "alice") := by
  obtain ⟨hne, hn⟩ := parseArgs_ok_names hparse
  refine ⟨fullSpeed_positions _, ticks_names _ _, ?_, ?_, ?_, ?_, rfl, by decide⟩
  · intro t ht
    refine ⟨fullSpeed_winner_early _ hn t ht, ?_⟩
    intro d hd
    rw [fullSpeed_positions _ t d hd]
    omega
  · intro d hd
    rw [fullSpeed_positions _ 15 d hd]
    decide
  · rcases fullSpeed_winner_15 cfg.Names hn with h | h
    · exact h
    · exact absurd h hne
  · intro timedOut hto fuel hfuel
    exact raceLoop_fullSpeed cfg.Names hn hne timedOut hto fuel 0 (by omega) (by omega)

/-- C9 for three participants parsed from a padded flag value. -/
theorem C9_full_speed_race_witness :
    parseArgs "carol, dave ,erin" = Except.ok { Duration := 0, Names := ["carol", "dave", "erin"] } ∧
    ["carol", "dave", "erin"].head? =
      some (ticks fullSpeed 15 (initState ["carol", "dave", "erin"])).winner :=
  ⟨rfl, (C9_full_speed_race "carol, dave ,erin"
    { Duration := 0, Names := ["carol", "dave", "erin"] } rfl).2.2.2.2.1⟩

/-! ### Ordinals -/

theorem sprintfD_natCast (k : Nat) : sprintfD (k : Int) = Nat.repr k := rfl

theorem getOrdinal_natCast (k : Nat) :
    getOrdinal (k : Int) = Nat.repr k ++ ordinalSuffixSpec k := by
  have h10 : (k : Int).tmod 10 = ((k % 10 : Nat) : Int) := by
    rw [Int.tmod_eq_emod (by omega) (by omega)]; omega
  have h100 : (k : Int).tmod 100 = ((k % 100 : Nat) : Int) := by
    rw [Int.tmod_eq_emod (by omega) (by omega)]; omega
  have hrel : k % 100 % 10 = k % 10 := by omega
  unfold getOrdinal ordinalSuffixSpec
  rw [h10, h100, sprintfD_natCast]
  have hlt : k % 100 < 100 := Nat.mod_lt _ (by decide)
  generalize k % 100 = r at hrel hlt
  generalize k % 10 = q at hrel
  subst hrel
  interval_cases r <;> simp

/-- C6, Ordinal formatting: for every integer `n ≥ 1`, `getOrdinal n` is the decimal
representation of `n` followed by the suffix of the specification's rule ("th" for
`n mod 100` in 11..13, else "st"/"nd"/"rd" for `n mod 10` in 1..3, else "th"); and the nine
listed examples evaluate as listed. -/
theorem C6_getOrdinal (n : Int) (hn : 1 ≤ n) :
    getOrdinal n = Nat.repr n.toNat ++ ordinalSuffixSpec n.toNat ∧
    getOrdinal 1 = "1st" ∧ getOrdinal 2 = "2nd" ∧ getOrdinal 3 = "3rd" ∧
    getOrdinal 4 = "4th" ∧ getOrdinal 11 = "11th" ∧ getOrdinal 12 = "12th" ∧
    getOrdinal 13 = "13th" ∧ getOrdinal 21 = "21st" ∧ getOrdinal 112 = "112th" := by
  refine ⟨?_, by decide, by decide, by decide, by decide, by decide, by decide, by decide,
    by decide, by decide⟩
  have h : n = ((n.toNat : Nat) : Int) := (Int.toNat_of_nonneg (by omega)).symm
  conv_lhs => rw [h]
  exact getOrdinal_natCast _

/-- C6 at 1023. -/
theorem C6_getOrdinal_witness :
    (1 : Int) ≤ 1023 ∧ getOrdinal 1023 = "1023rd" :=
  ⟨by decide, by
    have h := (C6_getOrdinal 1023 (by decide)).1
    rw [h]; decide⟩


/-! ### Rendering -/

theorem getSprite_eq (d : Duck) : d.GetSprite = "🦆" := by
  unfold Duck.GetSprite sprites
  simp [Int.tmod_one]

theorem string_foldl_append (acc : String) (l : List String) :
    List.foldl (fun r s => r ++ s) acc l = acc ++ List.foldl (fun r s => r ++ s) "" l := by
  induction l generalizing acc with
  | nil => simp
  | cons x xs ih =>
    simp only [List.foldl_cons]
    rw [ih (acc ++ x), ih ("" ++ x), String.empty_append, String.append_assoc]

theorem string_join_cons (x : String) (xs : List String) :
    String.join (x :: xs) = x ++ String.join xs := by
  unfold String.join
  rw [List.foldl_cons, string_foldl_append, String.empty_append]

theorem cell_eq_cellSpec (duck : Duck) (c : Nat) :
    cell duck (c : Int) = cellSpec duck.GetSprite duck.Position c := by
  unfold cell cellSpec
  rw [finishLine_eq]

theorem trackLoop_eq (duck : Duck) (n k : Nat) (h : k + n ≤ 60) :
    trackLoop duck n (k : Int) =
      String.join ((List.range' k n).map (cellSpec duck.GetSprite duck.Position)) := by
  induction n generalizing k with
  | zero => rfl
  | succ n ih =>
    unfold trackLoop
    have hk : (k : Int) < trackWidth := by unfold trackWidth; omega
    rw [if_pos hk, List.range'_succ, List.map_cons, string_join_cons, cell_eq_cellSpec]
    have := ih (k + 1) (by omega)
    push_cast at this
    rw [this]

/-- C8, Track row: for a duck with `0 ≤ Position ≤ 45` the rendered row is the name padded
with spaces to at least 10 characters (never truncated), then " |", then exactly 60 cells,
then "|" and the line end; the cell of column `c` is the duck glyph if `c` is the position,
else the flag if `c = 45`, else "~" if `c` is below the position, else a space; the duck
glyph is "🦆" and stands in the column of the position. -/
theorem C8_track_row (duck : Duck) (h0 : 0 ≤ duck.Position) (h45 : duck.Position ≤ 45) :
    renderRow duck =
      duck.Name ++ String.mk (List.replicate (10 - duck.Name.length) ' ') ++ " |" ++
        String.join ((List.range 60).map (cellSpec duck.GetSprite duck.Position)) ++ "|\n" ∧
    ((List.range 60).map (cellSpec duck.GetSprite duck.Position)).length = 60 ∧
    duck.GetSprite = "🦆" ∧
    (duck.Position.toNat < 60 ∧
      cellSpec duck.GetSprite duck.Position duck.Position.toNat = duck.GetSprite) := by
  refine ⟨?_, by simp, getSprite_eq duck, by omega, ?_⟩
  · unfold renderRow padName
    have h := trackLoop_eq duck 60 0 (by omega)
    have e : trackWidth.toNat = 60 := by decide
    rw [e]
    simp only [Nat.cast_zero] at h
    rw [h, List.range_eq_range']
  · unfold cellSpec
    rw [if_pos (Int.toNat_of_nonneg h0)]

/-- C8 for alice at position 7. -/
theorem C8_track_row_witness :
    (0 : Int) ≤ (Duck.mk "alice" 7 3).Position ∧ (Duck.mk "alice" 7 3).Position ≤ 45 ∧
    renderRow (Duck.mk "alice" 7 3) =
      "alice      |~~~~~~~🦆                                     🏁              |\n" :=
  ⟨by decide, by decide, by
    have h := (C8_track_row (Duck.mk "alice" 7 3) (by decide) (by decide)).1
    rw [h]; decide⟩


/-! ### Swaps -/

theorem swapAt_length (data : List Duck) (i j : Nat) :
    (swapAt data i j).length = data.length := by
  unfold swapAt; split <;> simp

theorem getD_swapAt (data : List Duck) (i j x : Nat) (hi : i < data.length)
    (hj : j < data.length) :
    (swapAt data i j).getD x default =
      if x = j then data.getD i default else if x = i then data.getD j default
      else data.getD x default := by
  unfold swapAt
  rw [if_pos ⟨hi, hj⟩]
  simp only [List.getD_eq_getElem?_getD, List.getElem?_set, List.length_set]
  by_cases h1 : x = j
  · subst h1; simp [hj]
  · by_cases h2 : x = i
    · subst h2
      have : ¬ j = x := fun e => h1 e.symm
      simp [this, h1, hi]
    · have h1' : ¬ j = x := fun e => h1 e.symm
      have h2' : ¬ i = x := fun e => h2 e.symm
      simp [h1, h2, h1', h2']

theorem getD_swapAt_of_ne (data : List Duck) (i j x : Nat) (hxi : x ≠ i) (hxj : x ≠ j) :
    (swapAt data i j).getD x default = data.getD x default := by
  by_cases h : i < data.length ∧ j < data.length
  · rw [getD_swapAt data i j x h.1 h.2, if_neg hxj, if_neg hxi]
  · unfold swapAt; rw [if_neg h]

theorem key_swapAt (data : List Duck) (i j x : Nat) (hi : i < data.length)
    (hj : j < data.length) :
    key (swapAt data i j) x =
      if x = j then key data i else if x = i then key data j else key data x := by
  unfold key
  rw [getD_swapAt data i j x hi hj]
  split
  · rfl
  · split <;> rfl

theorem key_swapAt_of_ne (data : List Duck) (i j x : Nat) (hxi : x ≠ i) (hxj : x ≠ j) :
    key (swapAt data i j) x = key data x := by
  unfold key; rw [getD_swapAt_of_ne data i j x hxi hxj]

theorem Less_iff (data : List Duck) (i j : Nat) :
    Less data i j = true ↔ key data j < key data i := by
  unfold Less; simp

theorem Less_false_iff (data : List Duck) (i j : Nat) :
    Less data i j = false ↔ key data i ≤ key data j := by
  unfold Less; simp

theorem swapAt_perm (data : List Duck) (i j : Nat) : (swapAt data i j).Perm data := by
  unfold swapAt
  split
  · rename_i h
    obtain ⟨hi, hj⟩ := h
    rw [List.perm_iff_count]
    intro b
    rw [List.getD_eq_getElem _ _ hi, List.getD_eq_getElem _ _ hj]
    have hj' : j < (data.set i data[j]).length := by simpa using hj
    have hji : (data.set i data[j])[j] = data[j] := by
      rw [List.getElem_set]; split
      · rfl
      · rfl
    have h1 := List.count_set data[i] b (data.set i data[j]) j hj'
    have h2 := List.count_set data[j] b data i hi
    rw [hji] at h1
    rw [h1, h2]
    have hcnt : (if data[i] == b then 1 else 0) ≤ data.count b := by
      split
      · rename_i hb
        have : data[i] = b := by simpa using hb
        exact List.count_pos_iff.mpr (this ▸ List.getElem_mem _)
      · exact Nat.zero_le _
    omega
  · exact List.Perm.refl _

/-! ### Reachability by swaps -/

theorem Reach.trans {a b : Nat} {l1 l2 l3 : List Duck} (h12 : Reach a b l1 l2)
    (h23 : Reach a b l2 l3) : Reach a b l1 l3 := by
  induction h23 with
  | refl => exact h12
  | step i j _ hi1 hi2 hj1 hj2 ih => exact Reach.step i j ih hi1 hi2 hj1 hj2

theorem Reach.mono {a b a' b' : Nat} {l1 l2 : List Duck} (h : Reach a b l1 l2)
    (ha : a' ≤ a) (hb : b ≤ b') : Reach a' b' l1 l2 := by
  induction h with
  | refl => exact Reach.refl _
  | step i j _ hi1 hi2 hj1 hj2 ih =>
    exact Reach.step i j ih (le_trans ha hi1) (lt_of_lt_of_le hi2 hb) (le_trans ha hj1)
      (lt_of_lt_of_le hj2 hb)

theorem Reach.swap {a b : Nat} (l : List Duck) (i j : Nat) (hi1 : a ≤ i) (hi2 : i < b)
    (hj1 : a ≤ j) (hj2 : j < b) : Reach a b l (swapAt l i j) :=
  Reach.step i j (Reach.refl l) hi1 hi2 hj1 hj2

theorem Reach.length_eq {a b : Nat} {l1 l2 : List Duck} (h : Reach a b l1 l2) :
    l2.length = l1.length := by
  induction h with
  | refl => rfl
  | step i j _ _ _ _ _ ih => rw [swapAt_length, ih]

theorem Reach.perm {a b : Nat} {l1 l2 : List Duck} (h : Reach a b l1 l2) : l2.Perm l1 := by
  induction h with
  | refl => exact List.Perm.refl _
  | step i j _ _ _ _ _ ih => exact (swapAt_perm _ i j).trans ih

theorem Reach.getD_outside {a b : Nat} {l1 l2 : List Duck} (h : Reach a b l1 l2) (x : Nat)
    (hx : x < a ∨ b ≤ x) : l2.getD x default = l1.getD x default := by
  induction h with
  | refl => rfl
  | step i j _ hi1 hi2 hj1 hj2 ih =>
    rw [getD_swapAt_of_ne _ i j x (by omega) (by omega), ih]

theorem Reach.key_outside {a b : Nat} {l1 l2 : List Duck} (h : Reach a b l1 l2) (x : Nat)
    (hx : x < a ∨ b ≤ x) : key l2 x = key l1 x := by
  unfold key; rw [h.getD_outside x hx]

theorem Reach.forall_range {a b : Nat} {l1 l2 : List Duck} (h : Reach a b l1 l2)
    (P : Duck → Prop) (hP : ∀ x, a ≤ x → x < b → P (l1.getD x default)) :
    ∀ x, a ≤ x → x < b → P (l2.getD x default) := by
  induction h with
  | refl => exact hP
  | @step l2 i j _ hi1 hi2 hj1 hj2 ih =>
    intro x hx1 hx2
    by_cases hr : i < l2.length ∧ j < l2.length
    · rw [getD_swapAt _ i j x hr.1 hr.2]
      split
      · exact ih i hi1 hi2
      · split
        · exact ih j hj1 hj2
        · exact ih x hx1 hx2
    · unfold swapAt; rw [if_neg hr]; exact ih x hx1 hx2

theorem Reach.key_le_range {a b : Nat} {l1 l2 : List Duck} (h : Reach a b l1 l2) (c : Int)
    (hP : ∀ x, a ≤ x → x < b → key l1 x ≤ c) : ∀ x, a ≤ x → x < b → key l2 x ≤ c :=
  h.forall_range (fun d => d.Position ≤ c) hP

theorem Reach.key_ge_range {a b : Nat} {l1 l2 : List Duck} (h : Reach a b l1 l2) (c : Int)
    (hP : ∀ x, a ≤ x → x < b → c ≤ key l1 x) : ∀ x, a ≤ x → x < b → c ≤ key l2 x :=
  h.forall_range (fun d => c ≤ d.Position) hP

theorem Reach.key_lt_range {a b : Nat} {l1 l2 : List Duck} (h : Reach a b l1 l2) (c : Int)
    (hP : ∀ x, a ≤ x → x < b → key l1 x < c) : ∀ x, a ≤ x → x < b → key l2 x < c :=
  h.forall_range (fun d => d.Position < c) hP

theorem Reach.key_gt_range {a b : Nat} {l1 l2 : List Duck} (h : Reach a b l1 l2) (c : Int)
    (hP : ∀ x, a ≤ x → x < b → c < key l1 x) : ∀ x, a ≤ x → x < b → c < key l2 x :=
  h.forall_range (fun d => c < d.Position) hP

theorem SortedOn.of_reach_outside {a b a' b' : Nat} {l1 l2 : List Duck}
    (hs : SortedOn a b l1) (h : Reach a' b' l1 l2) (hd : b ≤ a' ∨ b' ≤ a) :
    SortedOn a b l2 := by
  intro x y hx hxy hy
  rw [h.key_outside x (by omega), h.key_outside y (by omega)]
  exact hs x y hx hxy hy

theorem sortedOn_of_adjacent (a b : Nat) (data : List Duck)
    (h : ∀ x, a ≤ x → x + 1 < b → key data (x + 1) ≤ key data x) : SortedOn a b data := by
  intro x y hx hxy hy
  obtain ⟨d, rfl⟩ : ∃ d, y = x + 1 + d := ⟨y - (x + 1), by omega⟩
  clear hxy
  induction d with
  | zero => exact h x hx hy
  | succ d ih =>
    have h1 := ih (by omega)
    have h2 := h (x + 1 + d) (by omega) (by omega)
    exact le_trans h2 h1


/-! ### Stability of neighbour swaps -/

theorem swapAt_cons_succ (x : Duck) (xs : List Duck) (i j : Nat) :
    swapAt (x :: xs) (i + 1) (j + 1) = x :: swapAt xs i j := by
  unfold swapAt
  by_cases h : i < xs.length ∧ j < xs.length
  · have h' : i + 1 < (x :: xs).length ∧ j + 1 < (x :: xs).length := by
      simp only [List.length_cons]; omega
    rw [if_pos h, if_pos h']
    simp [List.getD_cons_succ]
  · have h' : ¬ (i + 1 < (x :: xs).length ∧ j + 1 < (x :: xs).length) := by
      simp only [List.length_cons]; omega
    rw [if_neg h, if_neg h']

theorem swapAt_one_zero (x y : Duck) (r : List Duck) :
    swapAt (x :: y :: r) 1 0 = y :: x :: r := by
  simp [swapAt]

theorem key_cons_succ (x : Duck) (xs : List Duck) (i : Nat) :
    key (x :: xs) (i + 1) = key xs i := by
  simp [key]

theorem filter_swapAt_adjacent (p : Int) (data : List Duck) (j : Nat)
    (h : j + 1 < data.length) (hne : key data (j + 1) ≠ key data j) :
    (swapAt data (j + 1) j).filter (fun d => decide (d.Position = p)) =
      data.filter (fun d => decide (d.Position = p)) := by
  induction j generalizing data with
  | zero =>
    match data, h with
    | x :: y :: r, _ =>
      rw [swapAt_one_zero]
      have hxy : y.Position ≠ x.Position := by simpa [key] using hne
      by_cases hx : x.Position = p
      · have hy : ¬ y.Position = p := fun e => hxy (e.trans hx.symm)
        simp [List.filter_cons, hx, hy]
      · by_cases hy : y.Position = p
        · simp [List.filter_cons, hx, hy]
        · simp [List.filter_cons, hx, hy]
  | succ j ih =>
    match data, h with
    | x :: xs, h =>
      rw [swapAt_cons_succ]
      have h' : j + 1 < xs.length := by simpa using h
      have hne' : key xs (j + 1) ≠ key xs j := by
        simpa [key_cons_succ] using hne
      simp only [List.filter_cons, ih xs h' hne']

theorem StableReach.andThen {l1 l2 l3 : List Duck} (h12 : StableReach l1 l2)
    (h23 : StableReach l2 l3) : StableReach l1 l3 := by
  induction h23 with
  | refl => exact h12
  | step j _ hj hne ih => exact StableReach.step j ih hj hne

theorem StableReach.keepsTieOrder {l1 l2 : List Duck} (h : StableReach l1 l2) :
    KeepsTieOrder l1 l2 := by
  induction h with
  | refl => intro p; rfl
  | step j _ hj hne ih =>
    intro p
    rw [filter_swapAt_adjacent p _ j hj hne]
    exact ih p

/-! ### Insertion sort -/

theorem insertionInner_spec (a i : Nat) (j : Nat) (data : List Duck) (hji : j ≤ i)
    (hi : i < data.length) (haj : a ≤ j)
    (h1 : ∀ x y, a ≤ x → x < y → y ≤ i → x ≠ j → y ≠ j → key data y ≤ key data x)
    (h2 : ∀ y, j < y → y ≤ i → key data y ≤ key data j) :
    SortedOn a (i + 1) (insertionInner a j data) ∧
    Reach a (i + 1) data (insertionInner a j data) ∧
    StableReach data (insertionInner a j data) := by
  induction j generalizing data with
  | zero =>
    refine ⟨?_, Reach.refl _, StableReach.refl _⟩
    intro x y hx hxy hy
    by_cases hx0 : x = 0
    · subst hx0; exact h2 y hxy (by omega)
    · exact h1 x y hx hxy (by omega) hx0 (by omega)
  | succ j ih =>
    unfold insertionInner
    by_cases hc : a < j + 1 ∧ Less data (j + 1) j = true
    · rw [if_pos hc]
      obtain ⟨haj', hless⟩ := hc
      rw [Less_iff] at hless
      have hj1 : j + 1 < data.length := by omega
      have hj0 : j < data.length := by omega
      have hk := key_swapAt data (j + 1) j
      obtain ⟨s1, s2, s3⟩ := ih (swapAt data (j + 1) j) (by omega)
        (by rw [swapAt_length]; exact hi) (by omega)
        (by
          intro x y hx hxy hy hxj hyj
          rw [hk y hj1 hj0, hk x hj1 hj0, if_neg hyj, if_neg hxj]
          by_cases hy1 : y = j + 1
          · rw [if_pos hy1, if_neg (by omega)]
            exact h1 x j hx (by omega) (by omega) (by omega) (by omega)
          · rw [if_neg hy1]
            by_cases hx1 : x = j + 1
            · rw [if_pos hx1]
              exact h1 j y (by omega) (by omega) hy (by omega) hy1
            · rw [if_neg hx1]
              exact h1 x y hx hxy hy hx1 hy1)
        (by
          intro y hjy hy
          rw [hk y hj1 hj0, hk j hj1 hj0, if_neg (by omega), if_pos rfl]
          by_cases hy1 : y = j + 1
          · rw [if_pos hy1]; omega
          · rw [if_neg hy1]
            exact h2 y (by omega) hy)
      refine ⟨s1, ?_, ?_⟩
      · exact Reach.trans (Reach.swap data (j + 1) j (by omega) (by omega) (by omega) (by omega)) s2
      · exact StableReach.andThen
          (StableReach.step j (StableReach.refl data) hj1 (by omega)) s3
    · rw [if_neg hc]
      refine ⟨?_, Reach.refl _, StableReach.refl _⟩
      intro x y hx hxy hy
      by_cases ha : a < j + 1
      · have hless : Less data (j + 1) j = false := by
          cases h : Less data (j + 1) j
          · rfl
          · exact absurd ⟨ha, h⟩ hc
        rw [Less_false_iff] at hless
        by_cases hx1 : x = j + 1
        · subst hx1; exact h2 y hxy (by omega)
        · by_cases hy1 : y = j + 1
          · subst hy1
            by_cases hxj : x = j
            · subst hxj; exact hless
            · have := h1 x j hx (by omega) (by omega) hx1 (by omega)
              omega
          · exact h1 x y hx hxy (by omega) hx1 hy1
      · have : a = j + 1 := by omega
        by_cases hx1 : x = j + 1
        · subst hx1; exact h2 y hxy (by omega)
        · exact h1 x y hx hxy (by omega) hx1 (by omega)

theorem insertionOuter_spec (a b n i : Nat) (data : List Duck) (hai : a < i)
    (hb : b ≤ data.length) (hn : b ≤ n + i) (hs : SortedOn a i data) :
    SortedOn a b (insertionOuter a b n i data) ∧
    Reach a b data (insertionOuter a b n i data) ∧
    StableReach data (insertionOuter a b n i data) := by
  induction n generalizing i data with
  | zero =>
    refine ⟨?_, Reach.refl _, StableReach.refl _⟩
    intro x y hx hxy hy
    exact hs x y hx hxy (by omega)
  | succ n ih =>
    unfold insertionOuter
    by_cases hib : i < b
    · rw [if_pos hib]
      obtain ⟨s1, s2, s3⟩ := insertionInner_spec a i i data (le_refl _) (by omega) (by omega)
        (fun x y hx hxy hy _ hyi => hs x y hx hxy (by omega))
        (fun y hy1 hy2 => by omega)
      obtain ⟨t1, t2, t3⟩ := ih (i + 1) (insertionInner a i data) (by omega)
        (by rw [s2.length_eq]; exact hb) (by omega) s1
      exact ⟨t1, Reach.trans (s2.mono (le_refl _) (by omega)) t2, StableReach.andThen s3 t3⟩
    · rw [if_neg hib]
      refine ⟨?_, Reach.refl _, StableReach.refl _⟩
      intro x y hx hxy hy
      exact hs x y hx hxy (by omega)

theorem insertionSort_spec (data : List Duck) (a b : Nat) (hb : b ≤ data.length) :
    SortedOn a b (insertionSort_func data a b) ∧
    Reach a b data (insertionSort_func data a b) ∧
    StableReach data (insertionSort_func data a b) := by
  unfold insertionSort_func
  exact insertionOuter_spec a b _ (a + 1) data (by omega) hb (by omega)
    (fun x y hx hxy hy => by omega)

/-! ### From slices to rankings -/

theorem pairwise_of_sortedOn (data : List Duck) (h : SortedOn 0 data.length data) :
    data.Pairwise (fun d e => d.Position ≥ e.Position) := by
  rw [List.pairwise_iff_getElem]
  intro i j hi hj hij
  have := h i j (Nat.zero_le _) hij hj
  unfold key at this
  rw [List.getD_eq_getElem _ _ hi, List.getD_eq_getElem _ _ hj] at this
  exact this

theorem isRanking_of (ducks out : List Duck) (hr : Reach 0 ducks.length ducks out)
    (hs : SortedOn 0 ducks.length out) : IsRanking ducks out := by
  refine ⟨hr.perm, pairwise_of_sortedOn out ?_⟩
  rw [hr.length_eq]; exact hs


/-! ### Partitioning -/

theorem scanUp_spec (data : List Duck) (a j n i : Nat) (hn : j + 1 ≤ n + i) (hij : i ≤ j + 1) :
    i ≤ scanUp data a j n i ∧ scanUp data a j n i ≤ j + 1 ∧
    (∀ x, i ≤ x → x < scanUp data a j n i → key data a < key data x) ∧
    (scanUp data a j n i ≤ j → key data (scanUp data a j n i) ≤ key data a) := by
  induction n generalizing i with
  | zero =>
    have : i = j + 1 := by omega
    subst this
    exact ⟨le_refl _, le_refl _, fun x h1 h2 => by simp only [scanUp] at h2; omega,
      fun h => by simp only [scanUp] at h; omega⟩
  | succ n ih =>
    unfold scanUp
    by_cases hc : i ≤ j ∧ Less data i a = true
    · rw [if_pos hc]
      obtain ⟨h1, h2, h3, h4⟩ := ih (i + 1) (by omega) (by omega)
      refine ⟨by omega, h2, ?_, h4⟩
      intro x hx1 hx2
      by_cases hxi : x = i
      · subst hxi; exact (Less_iff _ _ _).mp hc.2
      · exact h3 x (by omega) hx2
    · rw [if_neg hc]
      refine ⟨le_refl _, hij, fun x h1 h2 => by omega, ?_⟩
      intro hle
      cases h : Less data i a
      · exact (Less_false_iff _ _ _).mp h
      · exact absurd ⟨hle, h⟩ hc

theorem scanDown_spec (data : List Duck) (a i n j : Nat) (hn : j + 1 ≤ n + i) (hi : 1 ≤ i)
    (hij : i ≤ j + 1) :
    scanDown data a i n j ≤ j ∧ i ≤ scanDown data a i n j + 1 ∧
    (∀ y, scanDown data a i n j < y → y ≤ j → key data y ≤ key data a) ∧
    (i ≤ scanDown data a i n j → key data a < key data (scanDown data a i n j)) := by
  induction n generalizing j with
  | zero =>
    have : i = j + 1 := by omega
    subst this
    exact ⟨le_refl _, le_refl _, fun y h1 h2 => by simp only [scanDown] at h1; omega,
      fun h => by simp only [scanDown] at h; omega⟩
  | succ n ih =>
    unfold scanDown
    by_cases hc : i ≤ j ∧ Less data j a = false
    · rw [if_pos hc]
      obtain ⟨h1, h2, h3, h4⟩ := ih (j - 1) (by omega) (by omega)
      refine ⟨by omega, h2, ?_, h4⟩
      intro y hy1 hy2
      by_cases hyj : y = j
      · subst hyj; exact (Less_false_iff _ _ _).mp hc.2
      · exact h3 y hy1 (by omega)
    · rw [if_neg hc]
      refine ⟨le_refl _, hij, fun y h1 h2 => by omega, ?_⟩
      intro hle
      cases h : Less data j a
      · exact absurd ⟨hle, h⟩ hc
      · exact (Less_iff _ _ _).mp h

theorem partitionLoop_spec (a b : Nat) (P : Int) (n : Nat) (data : List Duck) (i j : Nat)
    (hai : a + 1 ≤ i) (hij : i ≤ j + 1) (hjb : j < b) (hb : b ≤ data.length)
    (hP : key data a = P) (hn : j + 2 ≤ n + i)
    (hlo : ∀ x, a < x → x < i → P < key data x)
    (hhi : ∀ y, j < y → y < b → key data y ≤ P) :
    Reach (a + 1) b data (partitionLoop a n data i j).1 ∧
    a ≤ (partitionLoop a n data i j).2 ∧ (partitionLoop a n data i j).2 < b ∧
    (∀ x, a < x → x ≤ (partitionLoop a n data i j).2 →
      P < key (partitionLoop a n data i j).1 x) ∧
    (∀ y, (partitionLoop a n data i j).2 < y → y < b →
      key (partitionLoop a n data i j).1 y ≤ P) ∧
    key (partitionLoop a n data i j).1 a = P := by
  induction n generalizing data i j with
  | zero => omega
  | succ n ih =>
    unfold partitionLoop
    dsimp only
    obtain ⟨u1, u2, u3, u4⟩ := scanUp_spec data a j (j + 1 - i) i (by omega) hij
    generalize scanUp data a j (j + 1 - i) i = i1 at *
    obtain ⟨d1, d2, d3, d4⟩ := scanDown_spec data a i1 (j + 1 - i1) j (by omega) (by omega) u2
    generalize scanDown data a i1 (j + 1 - i1) j = j1 at *
    by_cases hc : i1 > j1
    · rw [if_pos hc]
      refine ⟨Reach.refl _, by omega, by omega, ?_, ?_, hP⟩
      · intro x hx1 hx2
        by_cases hxi : x < i
        · exact hlo x hx1 hxi
        · rw [← hP]; exact u3 x (by omega) (by omega)
      · intro y hy1 hy2
        by_cases hyj : j < y
        · exact hhi y hyj hy2
        · rw [← hP]; exact d3 y hy1 (by omega)
    · rw [if_neg hc]
      have hk1 := u4 (by omega)
      have hk2 := d4 (by omega)
      have hlt : i1 < j1 := by
        rcases Nat.lt_or_ge i1 j1 with h | h
        · exact h
        · have : i1 = j1 := by omega
          subst this; omega
      have hi1 : i1 < data.length := by omega
      have hj1 : j1 < data.length := by omega
      have hk := key_swapAt data i1 j1
      obtain ⟨r1, r2, r3, r4, r5, r6⟩ := ih (swapAt data i1 j1) (i1 + 1) (j1 - 1) (by omega)
        (by omega) (by omega) (by rw [swapAt_length]; exact hb)
        (by rw [hk a hi1 hj1, if_neg (by omega), if_neg (by omega)]; exact hP)
        (by omega)
        (by
          intro x hx1 hx2
          rw [hk x hi1 hj1, if_neg (by omega)]
          by_cases hxi : x = i1
          · rw [if_pos hxi, ← hP]; exact hk2
          · rw [if_neg hxi]
            by_cases hxi' : x < i
            · exact hlo x hx1 hxi'
            · rw [← hP]; exact u3 x (by omega) (by omega))
        (by
          intro y hy1 hy2
          rw [hk y hi1 hj1]
          by_cases hyj : y = j1
          · rw [if_pos hyj, ← hP]; exact hk1
          · rw [if_neg hyj, if_neg (by omega)]
            by_cases hyj' : j < y
            · exact hhi y hyj' hy2
            · rw [← hP]; exact d3 y (by omega) (by omega))
      exact ⟨Reach.trans (Reach.swap data i1 j1 (by omega) (by omega) (by omega) (by omega)) r1,
        r2, r3, r4, r5, r6⟩

theorem partition_finish (a b : Nat) (P : Int) (data : List Duck) (j : Nat) (haj : a ≤ j)
    (hjb : j < b) (hb : b ≤ data.length) (hP : key data a = P)
    (hlo : ∀ x, a < x → x ≤ j → P < key data x)
    (hhi : ∀ y, j < y → y < b → key data y ≤ P) :
    Reach a b data (swapAt data j a) ∧
    (∀ x, a ≤ x → x < j → key (swapAt data j a) j < key (swapAt data j a) x) ∧
    (∀ y, j < y → y < b → key (swapAt data j a) y ≤ key (swapAt data j a) j) := by
  have hj : j < data.length := by omega
  have ha : a < data.length := by omega
  have hk := key_swapAt data j a
  have hmid : key (swapAt data j a) j = P := by
    rw [hk j hj ha]
    by_cases h : j = a
    · rw [if_pos h]; subst h; exact hP
    · rw [if_neg h, if_pos rfl]; exact hP
  refine ⟨Reach.swap data j a haj hjb (le_refl _) (by omega), ?_, ?_⟩
  · intro x hx1 hx2
    rw [hmid, hk x hj ha]
    by_cases hxa : x = a
    · rw [if_pos hxa]; exact hlo j (by omega) (le_refl _)
    · rw [if_neg hxa, if_neg (by omega)]
      exact hlo x (by omega) (by omega)
  · intro y hy1 hy2
    rw [hmid, hk y hj ha, if_neg (by omega), if_neg (by omega)]
    exact hhi y hy1 hy2

theorem partition_func_spec (data : List Duck) (a b pivot : Nat) (hap : a ≤ pivot)
    (hpb : pivot < b) (hb : b ≤ data.length) :
    Reach a b data (partition_func data a b pivot).1 ∧
    a ≤ (partition_func data a b pivot).2.1 ∧ (partition_func data a b pivot).2.1 < b ∧
    (∀ x, a ≤ x → x < (partition_func data a b pivot).2.1 →
      key (partition_func data a b pivot).1 (partition_func data a b pivot).2.1 <
        key (partition_func data a b pivot).1 x) ∧
    (∀ y, (partition_func data a b pivot).2.1 < y → y < b →
      key (partition_func data a b pivot).1 y ≤
        key (partition_func data a b pivot).1 (partition_func data a b pivot).2.1) := by
  unfold partition_func
  dsimp only
  have hr0 : Reach a b data (swapAt data a pivot) :=
    Reach.swap data a pivot (le_refl _) (by omega) hap hpb
  have hlen0 : (swapAt data a pivot).length = data.length := swapAt_length _ _ _
  generalize swapAt data a pivot = data1 at *
  obtain ⟨u1, u2, u3, u4⟩ := scanUp_spec data1 a (b - 1) (b - 1 + 1 - (a + 1)) (a + 1)
    (by omega) (by omega)
  generalize scanUp data1 a (b - 1) (b - 1 + 1 - (a + 1)) (a + 1) = i1 at *
  obtain ⟨d1, d2, d3, d4⟩ := scanDown_spec data1 a i1 (b - 1 + 1 - i1) (b - 1) (by omega)
    (by omega) u2
  generalize scanDown data1 a i1 (b - 1 + 1 - i1) (b - 1) = j1 at *
  by_cases hc : i1 > j1
  · rw [if_pos hc]
    dsimp only
    obtain ⟨f1, f2, f3⟩ := partition_finish a b (key data1 a) data1 j1 (by omega) (by omega)
      (by omega) rfl (fun x hx1 hx2 => u3 x (by omega) (by omega))
      (fun y hy1 hy2 => d3 y hy1 (by omega))
    exact ⟨Reach.trans hr0 f1, by omega, by omega, f2, f3⟩
  · rw [if_neg hc]
    dsimp only
    have hk1 := u4 (by omega)
    have hk2 := d4 (by omega)
    have hlt : i1 < j1 := by
      rcases Nat.lt_or_ge i1 j1 with h | h
      · exact h
      · have : i1 = j1 := by omega
        subst this; omega
    have hi1 : i1 < data1.length := by omega
    have hj1 : j1 < data1.length := by omega
    have hk := key_swapAt data1 i1 j1
    obtain ⟨r1, r2, r3, r4, r5, r6⟩ := partitionLoop_spec a b (key data1 a) (j1 - i1)
      (swapAt data1 i1 j1) (i1 + 1) (j1 - 1) (by omega) (by omega) (by omega)
      (by rw [swapAt_length]; omega)
      (by rw [hk a hi1 hj1, if_neg (by omega), if_neg (by omega)])
      (by omega)
      (by
        intro x hx1 hx2
        rw [hk x hi1 hj1, if_neg (by omega)]
        by_cases hxi : x = i1
        · rw [if_pos hxi]; exact hk2
        · rw [if_neg hxi]; exact u3 x (by omega) (by omega))
      (by
        intro y hy1 hy2
        rw [hk y hi1 hj1]
        by_cases hyj : y = j1
        · rw [if_pos hyj]; exact hk1
        · rw [if_neg hyj, if_neg (by omega)]
          exact d3 y (by omega) (by omega))
    have hrs : Reach a b data1 (swapAt data1 i1 j1) :=
      Reach.swap data1 i1 j1 (by omega) (by omega) (by omega) (by omega)
    generalize partitionLoop a (j1 - i1) (swapAt data1 i1 j1) (i1 + 1) (j1 - 1) = r at *
    obtain ⟨f1, f2, f3⟩ := partition_finish a b (key data1 a) r.1 r.2 r2 r3
      (by rw [r1.length_eq, swapAt_length]; omega) r6 r4 r5
    exact ⟨Reach.trans hr0 (Reach.trans hrs (Reach.trans (r1.mono (by omega) (le_refl _)) f1)),
      r2, r3, f2, f3⟩


theorem scanUpEq_spec (data : List Duck) (a j n i : Nat) (hn : j + 1 ≤ n + i)
    (hij : i ≤ j + 1) :
    i ≤ scanUpEq data a j n i ∧ scanUpEq data a j n i ≤ j + 1 ∧
    (∀ x, i ≤ x → x < scanUpEq data a j n i → key data a ≤ key data x) ∧
    (scanUpEq data a j n i ≤ j → key data (scanUpEq data a j n i) < key data a) := by
  induction n generalizing i with
  | zero =>
    have : i = j + 1 := by omega
    subst this
    exact ⟨le_refl _, le_refl _, fun x h1 h2 => by simp only [scanUpEq] at h2; omega,
      fun h => by simp only [scanUpEq] at h; omega⟩
  | succ n ih =>
    unfold scanUpEq
    by_cases hc : i ≤ j ∧ Less data a i = false
    · rw [if_pos hc]
      obtain ⟨h1, h2, h3, h4⟩ := ih (i + 1) (by omega) (by omega)
      refine ⟨by omega, h2, ?_, h4⟩
      intro x hx1 hx2
      by_cases hxi : x = i
      · subst hxi; exact (Less_false_iff _ _ _).mp hc.2
      · exact h3 x (by omega) hx2
    · rw [if_neg hc]
      refine ⟨le_refl _, hij, fun x h1 h2 => by omega, ?_⟩
      intro hle
      cases h : Less data a i
      · exact absurd ⟨hle, h⟩ hc
      · exact (Less_iff _ _ _).mp h

theorem scanDownEq_spec (data : List Duck) (a i n j : Nat) (hn : j + 1 ≤ n + i) (hi : 1 ≤ i)
    (hij : i ≤ j + 1) :
    scanDownEq data a i n j ≤ j ∧ i ≤ scanDownEq data a i n j + 1 ∧
    (∀ y, scanDownEq data a i n j < y → y ≤ j → key data y < key data a) ∧
    (i ≤ scanDownEq data a i n j → key data a ≤ key data (scanDownEq data a i n j)) := by
  induction n generalizing j with
  | zero =>
    have : i = j + 1 := by omega
    subst this
    exact ⟨le_refl _, le_refl _, fun y h1 h2 => by simp only [scanDownEq] at h1; omega,
      fun h => by simp only [scanDownEq] at h; omega⟩
  | succ n ih =>
    unfold scanDownEq
    by_cases hc : i ≤ j ∧ Less data a j = true
    · rw [if_pos hc]
      obtain ⟨h1, h2, h3, h4⟩ := ih (j - 1) (by omega) (by omega)
      refine ⟨by omega, h2, ?_, h4⟩
      intro y hy1 hy2
      by_cases hyj : y = j
      · subst hyj; exact (Less_iff _ _ _).mp hc.2
      · exact h3 y hy1 (by omega)
    · rw [if_neg hc]
      refine ⟨le_refl _, hij, fun y h1 h2 => by omega, ?_⟩
      intro hle
      cases h : Less data a j
      · exact (Less_false_iff _ _ _).mp h
      · exact absurd ⟨hle, h⟩ hc

theorem partitionEqualLoop_spec (a b : Nat) (P : Int) (n : Nat) (data : List Duck) (i j : Nat)
    (hai : a + 1 ≤ i) (hij : i ≤ j + 1) (hjb : j < b) (hb : b ≤ data.length)
    (hP : key data a = P) (hn : j + 2 ≤ n + i)
    (hlo : ∀ x, a < x → x < i → P ≤ key data x)
    (hhi : ∀ y, j < y → y < b → key data y < P) :
    Reach (a + 1) b data (partitionEqualLoop a n data i j).1 ∧
    a < (partitionEqualLoop a n data i j).2 ∧ (partitionEqualLoop a n data i j).2 ≤ b ∧
    (∀ x, a < x → x < (partitionEqualLoop a n data i j).2 →
      P ≤ key (partitionEqualLoop a n data i j).1 x) ∧
    (∀ y, (partitionEqualLoop a n data i j).2 ≤ y → y < b →
      key (partitionEqualLoop a n data i j).1 y < P) ∧
    key (partitionEqualLoop a n data i j).1 a = P := by
  induction n generalizing data i j with
  | zero => omega
  | succ n ih =>
    unfold partitionEqualLoop
    dsimp only
    obtain ⟨u1, u2, u3, u4⟩ := scanUpEq_spec data a j (j + 1 - i) i (by omega) hij
    generalize scanUpEq data a j (j + 1 - i) i = i1 at *
    obtain ⟨d1, d2, d3, d4⟩ := scanDownEq_spec data a i1 (j + 1 - i1) j (by omega) (by omega) u2
    generalize scanDownEq data a i1 (j + 1 - i1) j = j1 at *
    by_cases hc : i1 > j1
    · rw [if_pos hc]
      refine ⟨Reach.refl _, by dsimp only; omega, by dsimp only; omega, ?_, ?_, hP⟩
      · intro x hx1 hx2
        by_cases hxi : x < i
        · exact hlo x hx1 hxi
        · rw [← hP]; exact u3 x (by omega) hx2
      · intro y hy1 hy2
        dsimp only at hy1
        by_cases hyj : j < y
        · exact hhi y hyj hy2
        · rw [← hP]; exact d3 y (by omega) (by omega)
    · rw [if_neg hc]
      have hk1 := u4 (by omega)
      have hk2 := d4 (by omega)
      have hlt : i1 < j1 := by
        rcases Nat.lt_or_ge i1 j1 with h | h
        · exact h
        · have : i1 = j1 := by omega
          subst this; omega
      have hi1 : i1 < data.length := by omega
      have hj1 : j1 < data.length := by omega
      have hk := key_swapAt data i1 j1
      obtain ⟨r1, r2, r3, r4, r5, r6⟩ := ih (swapAt data i1 j1) (i1 + 1) (j1 - 1) (by omega)
        (by omega) (by omega) (by rw [swapAt_length]; exact hb)
        (by rw [hk a hi1 hj1, if_neg (by omega), if_neg (by omega)]; exact hP)
        (by omega)
        (by
          intro x hx1 hx2
          rw [hk x hi1 hj1, if_neg (by omega)]
          by_cases hxi : x = i1
          · rw [if_pos hxi, ← hP]; exact hk2
          · rw [if_neg hxi]
            by_cases hxi' : x < i
            · exact hlo x hx1 hxi'
            · rw [← hP]; exact u3 x (by omega) (by omega))
        (by
          intro y hy1 hy2
          rw [hk y hi1 hj1]
          by_cases hyj : y = j1
          · rw [if_pos hyj, ← hP]; exact hk1
          · rw [if_neg hyj, if_neg (by omega)]
            by_cases hyj' : j < y
            · exact hhi y hyj' hy2
            · rw [← hP]; exact d3 y (by omega) (by omega))
      exact ⟨Reach.trans (Reach.swap data i1 j1 (by omega) (by omega) (by omega) (by omega)) r1,
        r2, r3, r4, r5, r6⟩

theorem partitionEqual_func_spec (data : List Duck) (a b pivot : Nat) (hap : a ≤ pivot)
    (hpb : pivot < b) (hb : b ≤ data.length)
    (hmax : ∀ x, a ≤ x → x < b → key data x ≤ key data pivot) :
    Reach a b data (partitionEqual_func data a b pivot).1 ∧
    a < (partitionEqual_func data a b pivot).2 ∧ (partitionEqual_func data a b pivot).2 ≤ b ∧
    (∀ x, a ≤ x → x < (partitionEqual_func data a b pivot).2 →
      key (partitionEqual_func data a b pivot).1 x = key data pivot) ∧
    (∀ y, (partitionEqual_func data a b pivot).2 ≤ y → y < b →
      key (partitionEqual_func data a b pivot).1 y < key data pivot) := by
  unfold partitionEqual_func
  dsimp only
  have hr0 : Reach a b data (swapAt data a pivot) :=
    Reach.swap data a pivot (le_refl _) (by omega) hap hpb
  have hP : key (swapAt data a pivot) a = key data pivot := by
    rw [key_swapAt data a pivot a (by omega) (by omega)]
    by_cases h : a = pivot
    · rw [if_pos h, h]
    · rw [if_neg h, if_pos rfl]
  have hlen0 : (swapAt data a pivot).length = data.length := swapAt_length _ _ _
  generalize swapAt data a pivot = data1 at *
  obtain ⟨r1, r2, r3, r4, r5, r6⟩ := partitionEqualLoop_spec a b (key data pivot) (b - a)
    data1 (a + 1) (b - 1) (le_refl _) (by omega) (by omega) (by omega) hP (by omega)
    (fun x h1 h2 => by omega) (fun y h1 h2 => by omega)
  have hr : Reach a b data (partitionEqualLoop a (b - a) data1 (a + 1) (b - 1)).1 :=
    Reach.trans hr0 (r1.mono (by omega) (le_refl _))
  have hle := hr.key_le_range (key data pivot) hmax
  refine ⟨hr, r2, r3, ?_, r5⟩
  intro x hx1 hx2
  by_cases hxa : x = a
  · rw [hxa]; exact r6
  · exact le_antisymm (hle x hx1 (by omega)) (r4 x (by omega) hx2)


/-! ### Heap sort -/

theorem siftDownLoop_spec (hi first lo : Nat) (fuel root : Nat) (data : List Duck)
    (hlen : first + hi ≤ data.length) (hfuel : hi ≤ fuel + root) (hlo : lo ≤ root)
    (hex : HeapExcept first lo hi root data) :
    HeapFrom first lo hi (siftDownLoop hi first fuel root data) ∧
    Reach (first + lo) (first + hi) data (siftDownLoop hi first fuel root data) := by
  induction fuel generalizing root data with
  | zero =>
    refine ⟨?_, Reach.refl _⟩
    intro p c hp hc hpc
    by_cases hpr : p = root
    · omega
    · exact hex.1 p c hp hpr hc hpc
  | succ fuel ih =>
    unfold siftDownLoop
    dsimp only
    by_cases h1 : 2 * root + 1 ≥ hi
    · rw [if_pos h1]
      refine ⟨?_, Reach.refl _⟩
      intro p c hp hc hpc
      by_cases hpr : p = root
      · omega
      · exact hex.1 p c hp hpr hc hpc
    · rw [if_neg h1]
      have hsel : ∃ cs, (if 2 * root + 1 + 1 < hi ∧
            Less data (first + (2 * root + 1)) (first + (2 * root + 1) + 1) = true
          then 2 * root + 1 + 1 else 2 * root + 1) = cs ∧
          (cs = 2 * root + 1 ∨ cs = 2 * root + 2) ∧ cs < hi ∧
          ∀ c, c < hi → (c = 2 * root + 1 ∨ c = 2 * root + 2) →
            key data (first + cs) ≤ key data (first + c) := by
        by_cases h2 : 2 * root + 1 + 1 < hi ∧
            Less data (first + (2 * root + 1)) (first + (2 * root + 1) + 1) = true
        · rw [if_pos h2]
          refine ⟨_, rfl, Or.inr rfl, h2.1, ?_⟩
          intro c hc hcc
          have hl := (Less_iff _ _ _).mp h2.2
          rcases hcc with rfl | rfl
          · exact le_of_lt hl
          · exact le_refl _
        · rw [if_neg h2]
          refine ⟨_, rfl, Or.inl rfl, by omega, ?_⟩
          intro c hc hcc
          rcases hcc with rfl | rfl
          · exact le_refl _
          · have : Less data (first + (2 * root + 1)) (first + (2 * root + 1) + 1) = false := by
              cases h : Less data (first + (2 * root + 1)) (first + (2 * root + 1) + 1)
              · rfl
              · exact absurd ⟨hc, h⟩ h2
            exact (Less_false_iff _ _ _).mp this
      obtain ⟨cs, hcs, hcs1, hcs2, hcs3⟩ := hsel
      rw [hcs]
      by_cases h3 : Less data (first + root) (first + cs) = false
      · rw [if_pos h3]
        refine ⟨?_, Reach.refl _⟩
        intro p c hp hc hpc
        by_cases hpr : p = root
        · subst hpr
          exact le_trans ((Less_false_iff _ _ _).mp h3) (hcs3 c hc hpc)
        · exact hex.1 p c hp hpr hc hpc
      · rw [if_neg h3]
        have hless : key data (first + cs) < key data (first + root) := by
          cases h : Less data (first + root) (first + cs)
          · exact absurd h h3
          · exact (Less_iff _ _ _).mp h
        have hr : first + root < data.length := by omega
        have hc' : first + cs < data.length := by omega
        have hk := fun x => key_swapAt data (first + root) (first + cs) x hr hc'
        obtain ⟨s1, s2⟩ := ih cs (swapAt data (first + root) (first + cs))
          (by rw [swapAt_length]; exact hlen) (by omega) (by omega)
          (by
            constructor
            · intro p c hp hpcs hc hpc
              rw [hk (first + p), hk (first + c), if_neg (by omega)]
              by_cases hpr : p = root
              · subst hpr
                rw [if_pos rfl]
                by_cases hccs : c = cs
                · subst hccs; rw [if_pos rfl]; exact le_of_lt hless
                · rw [if_neg (by omega), if_neg (by omega)]
                  exact hcs3 c hc hpc
              · rw [if_neg (by omega)]
                by_cases hcr : c = root
                · subst hcr
                  rw [if_neg (by omega), if_pos rfl]
                  exact hex.2 p cs hp hpc hcs2 hcs1
                · rw [if_neg (by omega), if_neg (by omega)]
                  exact hex.1 p c hp hpr hc hpc
            · intro p c hp hpcs hc hcc
              have hpr : p = root := by omega
              subst hpr
              rw [hk (first + p), hk (first + c), if_neg (by omega), if_pos rfl,
                if_neg (by omega), if_neg (by omega)]
              exact hex.1 cs c (by omega) (by omega) hc hcc)
        exact ⟨s1, Reach.trans
          (Reach.swap data (first + root) (first + cs) (by omega) (by omega) (by omega) (by omega))
          (s2.mono (by omega) (le_refl _))⟩

theorem siftDown_func_spec (data : List Duck) (lo hi first : Nat)
    (hlen : first + hi ≤ data.length) (hex : HeapExcept first lo hi lo data) :
    HeapFrom first lo hi (siftDown_func data lo hi first) ∧
    Reach (first + lo) (first + hi) data (siftDown_func data lo hi first) :=
  siftDownLoop_spec hi first lo hi lo data hlen (by omega) (le_refl _) hex

theorem heapExcept_of_heapFrom (first lo hi : Nat) (data : List Duck)
    (h : HeapFrom first (lo + 1) hi data) : HeapExcept first lo hi lo data := by
  constructor
  · intro p c hp hpr hc hpc
    exact h p c (by omega) hc hpc
  · intro p c hp hpr hc hcc
    omega

theorem heapBuild_spec (hi first i : Nat) (data : List Duck) (hlen : first + hi ≤ data.length)
    (h : HeapFrom first (i + 1) hi data) :
    HeapFrom first 0 hi (heapBuild hi first i data) ∧
    Reach first (first + hi) data (heapBuild hi first i data) := by
  induction i generalizing data with
  | zero =>
    unfold heapBuild
    have := siftDown_func_spec data 0 hi first hlen (heapExcept_of_heapFrom first 0 hi data h)
    exact ⟨this.1, this.2.mono (by omega) (le_refl _)⟩
  | succ i ih =>
    unfold heapBuild
    obtain ⟨s1, s2⟩ := siftDown_func_spec data (i + 1) hi first hlen
      (heapExcept_of_heapFrom first (i + 1) hi data h)
    obtain ⟨t1, t2⟩ := ih (siftDown_func data (i + 1) hi first)
      (by rw [s2.length_eq]; exact hlen) s1
    exact ⟨t1, Reach.trans (s2.mono (by omega) (le_refl _)) t2⟩

theorem heap_root_min (first n : Nat) (data : List Duck) (h : HeapFrom first 0 n data) :
    ∀ x, x < n → key data (first + 0) ≤ key data (first + x) := by
  intro x
  induction x using Nat.strong_induction_on with
  | _ x ih =>
    intro hx
    by_cases hx0 : x = 0
    · subst hx0; exact le_refl _
    · have h1 := ih ((x - 1) / 2) (by omega) (by omega)
      have h2 := h ((x - 1) / 2) x (Nat.zero_le _) hx (by omega)
      exact le_trans h1 h2

theorem heapPop_spec (first hi n : Nat) (data : List Duck) (hn : n ≤ hi)
    (hlen : first + hi ≤ data.length) (hheap : HeapFrom first 0 n data)
    (hsorted : SortedOn (first + n) (first + hi) data)
    (htail : ∀ x y, x < n → n ≤ y → y < hi → key data (first + y) ≤ key data (first + x)) :
    SortedOn first (first + hi) (heapPop first n data) ∧
    Reach first (first + hi) data (heapPop first n data) := by
  induction n generalizing data with
  | zero => exact ⟨by simpa using hsorted, Reach.refl _⟩
  | succ n ih =>
    unfold heapPop
    have hmin := heap_root_min first (n + 1) data hheap
    have h0 : first < data.length := by omega
    have hnl : first + n < data.length := by omega
    have hk := fun x => key_swapAt data first (first + n) x h0 hnl
    have hex : HeapExcept first 0 n 0 (swapAt data first (first + n)) := by
      constructor
      · intro p c hp hp0 hc hpc
        rw [hk (first + p), hk (first + c), if_neg (by omega), if_neg (by omega),
          if_neg (by omega), if_neg (by omega)]
        exact hheap p c hp (by omega) hpc
      · intro p c hp hpr hc hcc
        omega
    have hlen1 : first + hi ≤ (swapAt data first (first + n)).length := by
      rw [swapAt_length]; exact hlen
    obtain ⟨s1, s2⟩ := siftDown_func_spec (swapAt data first (first + n)) 0 n first
      (by omega) hex
    have hr1 : Reach first (first + hi) data (swapAt data first (first + n)) :=
      Reach.swap data first (first + n) (le_refl _) (by omega) (by omega) (by omega)
    have hsorted1 : SortedOn (first + n) (first + hi) (swapAt data first (first + n)) := by
      intro x y hx hxy hy
      obtain ⟨x', rfl⟩ : ∃ x', x = first + x' := ⟨x - first, by omega⟩
      obtain ⟨y', rfl⟩ : ∃ y', y = first + y' := ⟨y - first, by omega⟩
      rw [hk (first + y'), hk (first + x'), if_neg (by omega), if_neg (by omega)]
      by_cases hxn : x' = n
      · subst hxn
        rw [if_pos rfl]
        have := htail 0 y' (by omega) (by omega) (by omega)
        simpa using this
      · rw [if_neg (by omega), if_neg (by omega)]
        exact hsorted (first + x') (first + y') (by omega) hxy hy
    have htail1 : ∀ x y, x < n → n ≤ y → y < hi →
        key (swapAt data first (first + n)) (first + y) ≤
          key (swapAt data first (first + n)) (first + x) := by
      intro x y hx hy1 hy2
      rw [hk (first + y), hk (first + x)]
      rw [if_neg (show ¬ (first + x = first + n) by omega)]
      by_cases hyn : y = n
      · subst hyn
        rw [if_pos rfl]
        by_cases hx0 : x = 0
        · subst hx0
          rw [if_pos (show first + 0 = first by omega)]
          have := hmin y (by omega)
          simpa using this
        · rw [if_neg (show ¬ (first + x = first) by omega)]
          have := hmin x (by omega)
          simpa using this
      · rw [if_neg (show ¬ (first + y = first + n) by omega),
          if_neg (show ¬ (first + y = first) by omega)]
        by_cases hx0 : x = 0
        · subst hx0
          rw [if_pos (show first + 0 = first by omega)]
          exact htail n y (by omega) (by omega) hy2
        · rw [if_neg (show ¬ (first + x = first) by omega)]
          exact htail x y (by omega) (by omega) hy2
    have s2' : Reach first (first + n) (swapAt data first (first + n))
        (siftDown_func (swapAt data first (first + n)) 0 n first) := by
      simpa using s2
    obtain ⟨t1, t2⟩ := ih (siftDown_func (swapAt data first (first + n)) 0 n first) (by omega)
      (by rw [s2.length_eq]; exact hlen1) s1
      (hsorted1.of_reach_outside s2' (Or.inr (le_refl _)))
      (by
        intro x y hx hy1 hy2
        rw [s2'.key_outside (first + y) (by omega)]
        have := s2'.key_ge_range (key (swapAt data first (first + n)) (first + y))
          (by
            intro z hz1 hz2
            obtain ⟨z', rfl⟩ : ∃ z', z = first + z' := ⟨z - first, by omega⟩
            exact htail1 z' y (by omega) hy1 hy2)
        exact this (first + x) (by omega) (by omega))
    exact ⟨t1, Reach.trans hr1 (Reach.trans (s2'.mono (le_refl _) (by omega)) t2)⟩

theorem heapSort_spec (data : List Duck) (a b : Nat) (hab : a ≤ b) (hb : b ≤ data.length) :
    SortedOn a b (heapSort_func data a b) ∧ Reach a b data (heapSort_func data a b) := by
  unfold heapSort_func
  dsimp only
  have hlen : a + (b - a) ≤ data.length := by omega
  obtain ⟨s1, s2⟩ := heapBuild_spec (b - a) a ((b - a - 1) / 2) data hlen
    (by
      intro p c hp hc hpc
      omega)
  obtain ⟨t1, t2⟩ := heapPop_spec a (b - a) (b - a) (heapBuild (b - a) a ((b - a - 1) / 2) data)
    (le_refl _) (by rw [s2.length_eq]; exact hlen) s1
    (fun x y hx hxy hy => by omega) (fun x y hx hy1 hy2 => by omega)
  have e : a + (b - a) = b := by omega
  rw [e] at t1 t2 s2
  exact ⟨t1, Reach.trans s2 t2⟩


/-! ### Partial insertion sort, pattern breaking, pivot choice -/

theorem skipSorted_spec (data : List Duck) (b n i : Nat) (hn : b ≤ n + i) (hib : i ≤ b) :
    i ≤ skipSorted data b n i ∧ skipSorted data b n i ≤ b ∧
    (∀ x, i ≤ x → x < skipSorted data b n i → key data x ≤ key data (x - 1)) := by
  induction n generalizing i with
  | zero => exact ⟨le_refl _, hib, fun x h1 h2 => by simp only [skipSorted] at h2; omega⟩
  | succ n ih =>
    unfold skipSorted
    by_cases hc : i < b ∧ Less data i (i - 1) = false
    · rw [if_pos hc]
      obtain ⟨h1, h2, h3⟩ := ih (i + 1) (by omega) (by omega)
      refine ⟨by omega, h2, ?_⟩
      intro x hx1 hx2
      by_cases hxi : x = i
      · subst hxi; exact (Less_false_iff _ _ _).mp hc.2
      · exact h3 x (by omega) hx2
    · rw [if_neg hc]
      exact ⟨le_refl _, hib, fun x h1 h2 => by omega⟩

theorem shiftLeft_eq_insertionInner (a j : Nat) (data : List Duck) (haj : a ≤ j)
    (hj : j < data.length) (hbound : 0 < a → key data j ≤ key data (a - 1)) :
    shiftLeft j data = insertionInner a j data := by
  induction j generalizing data with
  | zero => rfl
  | succ j ih =>
    unfold shiftLeft insertionInner
    cases hl : Less data (j + 1) j
    · simp
    · have hlt := (Less_iff _ _ _).mp hl
      have haj' : a < j + 1 := by
        rcases Nat.lt_or_ge a (j + 1) with h | h
        · exact h
        · have ha : a = j + 1 := by omega
          have := hbound (by omega)
          rw [ha] at this
          simp only [Nat.add_sub_cancel] at this
          omega
      simp only [haj', true_and, if_true]
      rw [if_neg (by simp)]
      apply ih _ (by omega) (by rw [swapAt_length]; omega)
      intro ha0
      rw [key_swapAt data (j + 1) j j hj (by omega), if_pos rfl,
        key_swapAt data (j + 1) j (a - 1) hj (by omega), if_neg (by omega), if_neg (by omega)]
      exact hbound ha0

theorem shiftRight_reach (b n j : Nat) (data : List Duck) (hj : 1 ≤ j) :
    Reach (j - 1) b data (shiftRight b n j data) := by
  induction n generalizing j data with
  | zero => exact Reach.refl _
  | succ n ih =>
    unfold shiftRight
    by_cases hjb : j < b
    · rw [if_pos hjb]
      cases hl : Less data j (j - 1)
      · simp only [if_true]; exact Reach.refl _
      · rw [if_neg (by simp)]
        have h1 := ih (j + 1) (swapAt data j (j - 1)) (by omega)
        exact Reach.trans (Reach.swap data j (j - 1) (by omega) hjb (le_refl _) (by omega))
          (h1.mono (by omega) (le_refl _))
    · rw [if_neg hjb]; exact Reach.refl _

theorem bound_of_reach {a b : Nat} {l1 l2 : List Duck} (h : Reach a b l1 l2)
    (hbound : 0 < a → ∀ x, a ≤ x → x < b → key l1 x ≤ key l1 (a - 1)) :
    0 < a → ∀ x, a ≤ x → x < b → key l2 x ≤ key l2 (a - 1) := by
  intro ha
  rw [h.key_outside (a - 1) (Or.inl (by omega))]
  exact h.key_le_range _ (hbound ha)

theorem partialLoop_spec (a b s i : Nat) (data : List Duck) (hai : a + 1 ≤ i) (hib : i ≤ b)
    (hb : b ≤ data.length) (hsorted : SortedOn a i data)
    (hbound : 0 < a → ∀ x, a ≤ x → x < b → key data x ≤ key data (a - 1)) :
    Reach a b data (partialLoop a b s i data).1 ∧
    ((partialLoop a b s i data).2 = true → SortedOn a b (partialLoop a b s i data).1) := by
  induction s generalizing i data with
  | zero => exact ⟨Reach.refl _, fun h => by simp [partialLoop] at h⟩
  | succ s ih =>
    unfold partialLoop
    dsimp only
    obtain ⟨k1, k2, k3⟩ := skipSorted_spec data b (b - i) i (by omega) hib
    generalize skipSorted data b (b - i) i = i1 at *
    have hs1 : SortedOn a i1 data := by
      apply sortedOn_of_adjacent
      intro x hx1 hx2
      by_cases hxi : x + 1 < i
      · exact hsorted x (x + 1) hx1 (by omega) hxi
      · have := k3 (x + 1) (by omega) hx2
        simpa using this
    by_cases h1 : i1 = b
    · rw [if_pos h1]
      exact ⟨Reach.refl _, fun _ => h1 ▸ hs1⟩
    · rw [if_neg h1]
      by_cases h2 : b - a < 50
      · rw [if_pos h2]
        exact ⟨Reach.refl _, fun h => by simp at h⟩
      · rw [if_neg h2]
        have hr1 : Reach a b data (swapAt data i1 (i1 - 1)) :=
          Reach.swap data i1 (i1 - 1) (by omega) (by omega) (by omega) (by omega)
        have hs1' : ∀ x y, a ≤ x → x < y → y < i1 - 1 →
            key (swapAt data i1 (i1 - 1)) y ≤ key (swapAt data i1 (i1 - 1)) x := by
          intro x y hx hxy hy
          rw [key_swapAt_of_ne _ _ _ y (by omega) (by omega),
            key_swapAt_of_ne _ _ _ x (by omega) (by omega)]
          exact hs1 x y hx hxy (by omega)
        have hb1 := bound_of_reach hr1 hbound
        have hlen1 : (swapAt data i1 (i1 - 1)).length = data.length := swapAt_length _ _ _
        generalize swapAt data i1 (i1 - 1) = data1 at *
        have hstep2 : Reach a b data1 (if i1 - a ≥ 2 then shiftLeft (i1 - 1) data1 else data1) ∧
            SortedOn a i1 (if i1 - a ≥ 2 then shiftLeft (i1 - 1) data1 else data1) := by
          by_cases h3 : i1 - a ≥ 2
          · rw [if_pos h3]
            rw [shiftLeft_eq_insertionInner a (i1 - 1) data1 (by omega) (by omega)
              (fun ha => hb1 ha (i1 - 1) (by omega) (by omega))]
            obtain ⟨t1, t2, _⟩ := insertionInner_spec a (i1 - 1) (i1 - 1) data1 (le_refl _)
              (by omega) (by omega)
              (fun x y hx hxy hy _ hyn => hs1' x y hx hxy (by omega))
              (fun y hy1 hy2 => by omega)
            have e : i1 - 1 + 1 = i1 := by omega
            rw [e] at t1 t2
            exact ⟨t2.mono (le_refl _) (by omega), t1⟩
          · rw [if_neg h3]
            refine ⟨Reach.refl _, ?_⟩
            intro x y hx hxy hy
            omega
        obtain ⟨hr2, hs2⟩ := hstep2
        generalize (if i1 - a ≥ 2 then shiftLeft (i1 - 1) data1 else data1) = data2 at *
        have hr3 : Reach i1 b data2
            (if b - i1 ≥ 2 then shiftRight b (b - (i1 + 1)) (i1 + 1) data2 else data2) := by
          by_cases h4 : b - i1 ≥ 2
          · rw [if_pos h4]
            have := shiftRight_reach b (b - (i1 + 1)) (i1 + 1) data2 (by omega)
            simpa using this
          · rw [if_neg h4]; exact Reach.refl _
        generalize (if b - i1 ≥ 2 then shiftRight b (b - (i1 + 1)) (i1 + 1) data2 else data2)
          = data3 at *
        have hr13 : Reach a b data data3 :=
          Reach.trans hr1 (Reach.trans hr2 (hr3.mono (by omega) (le_refl _)))
        obtain ⟨u1, u2⟩ := ih i1 data3 (by omega) (by omega)
          (by rw [hr13.length_eq]; exact hb)
          (hs2.of_reach_outside hr3 (Or.inl (le_refl _)))
          (bound_of_reach hr13 hbound)
        exact ⟨Reach.trans hr13 u1, u2⟩

theorem partialInsertionSort_spec (data : List Duck) (a b : Nat) (hab : a < b)
    (hb : b ≤ data.length)
    (hbound : 0 < a → ∀ x, a ≤ x → x < b → key data x ≤ key data (a - 1)) :
    Reach a b data (partialInsertionSort_func data a b).1 ∧
    ((partialInsertionSort_func data a b).2 = true →
      SortedOn a b (partialInsertionSort_func data a b).1) := by
  unfold partialInsertionSort_func
  exact partialLoop_spec a b 5 (a + 1) data (le_refl _) (by omega) hb
    (fun x y hx hxy hy => by omega) hbound

theorem bitsLenAux_pow (fuel n : Nat) (hn : 1 ≤ n) (hf : n ≤ fuel) :
    2 ^ bitsLenAux fuel n ≤ 2 * n := by
  induction fuel generalizing n with
  | zero => omega
  | succ fuel ih =>
    unfold bitsLenAux
    rw [if_neg (by omega)]
    by_cases h1 : n / 2 = 0
    · have : bitsLenAux fuel (n / 2) = 0 := by
        rw [h1]; cases fuel <;> simp [bitsLenAux]
      rw [this]; omega
    · have := ih (n / 2) (by omega) (by omega)
      rw [pow_succ]
      omega

theorem breakLoop_reach (random : Nat → Nat) (a b length modulus idx n i : Nat)
    (data : List Duck) (hlen : length = b - a) (hmod : modulus ≤ 2 * length)
    (hm : 0 < modulus) (hpos : 0 < length)
    (hidx1 : a + 1 ≤ idx) (hidx2 : idx - 1 + (i + n) ≤ b) :
    Reach a b data (breakLoop random a length modulus idx n i data) := by
  induction n generalizing i data with
  | zero => exact Reach.refl _
  | succ n ih =>
    unfold breakLoop
    dsimp only
    have hother : (if random i % modulus ≥ length then random i % modulus - length
        else random i % modulus) < length := by
      have := Nat.mod_lt (random i) hm
      split <;> omega
    generalize (if random i % modulus ≥ length then random i % modulus - length
        else random i % modulus) = other at *
    exact Reach.trans
      (Reach.swap data (idx - 1 + i) (a + other) (by omega) (by omega) (by omega) (by omega))
      (ih (i + 1) _ (by omega))

theorem breakPatterns_reach (xorshift : Nat → Nat → Nat) (data : List Duck) (a b : Nat) :
    Reach a b data (breakPatterns_func xorshift data a b) := by
  unfold breakPatterns_func
  dsimp only
  by_cases h : b - a ≥ 8
  · rw [if_pos h]
    apply breakLoop_reach _ a b (b - a) _ _ 3 0 data rfl
    · exact bitsLenAux_pow (b - a) (b - a) (by omega) (le_refl _)
    · exact Nat.pos_pow_of_pos _ (by decide)
    · omega
    · omega
    · omega
  · rw [if_neg h]; exact Reach.refl _

theorem order2_func_fst (data : List Duck) (x y s : Nat) :
    ((order2_func data x y s).1 = x ∧ (order2_func data x y s).2.1 = y) ∨
    ((order2_func data x y s).1 = y ∧ (order2_func data x y s).2.1 = x) := by
  unfold order2_func
  split
  · exact Or.inr ⟨rfl, rfl⟩
  · exact Or.inl ⟨rfl, rfl⟩

theorem median_func_mem (data : List Duck) (x y z s : Nat) :
    (median_func data x y z s).1 = x ∨ (median_func data x y z s).1 = y ∨
    (median_func data x y z s).1 = z := by
  unfold median_func
  dsimp only
  rcases order2_func_fst data x y s with ⟨h1, h2⟩ | ⟨h1, h2⟩ <;>
  rcases order2_func_fst data (order2_func data x y s).2.1 z (order2_func data x y s).2.2
    with ⟨h3, h4⟩ | ⟨h3, h4⟩ <;>
  rcases order2_func_fst data (order2_func data x y s).1
    (order2_func data (order2_func data x y s).2.1 z (order2_func data x y s).2.2).1
    (order2_func data (order2_func data x y s).2.1 z (order2_func data x y s).2.2).2.2
    with ⟨h5, h6⟩ | ⟨h5, h6⟩ <;>
  simp only [h1, h2, h3, h4, h5, h6] at * <;> simp_all

theorem median_func_range (data : List Duck) (x y z s lo hi : Nat)
    (hx : lo ≤ x ∧ x < hi) (hy : lo ≤ y ∧ y < hi) (hz : lo ≤ z ∧ z < hi) :
    lo ≤ (median_func data x y z s).1 ∧ (median_func data x y z s).1 < hi := by
  rcases median_func_mem data x y z s with h | h | h <;> rw [h] <;> assumption

theorem choosePivot_range (data : List Duck) (a b : Nat) (hab : 12 < b - a) :
    a ≤ (choosePivot_func data a b).1 ∧ (choosePivot_func data a b).1 < b := by
  have hfst : ∀ (r : Nat × Nat),
      (if r.2 = 0 then (r.1, sortedHint.increasingHint)
        else if r.2 = 4 * 3 then (r.1, sortedHint.decreasingHint)
        else (r.1, sortedHint.unknownHint)).1 = r.1 := by
    intro r; split
    · rfl
    · split <;> rfl
  unfold choosePivot_func
  dsimp only
  rw [hfst]
  rw [if_pos (by omega : b - a ≥ 8)]
  by_cases h50 : b - a ≥ 50
  · rw [if_pos h50]
    apply median_func_range
    · unfold medianAdjacent_func; apply median_func_range <;> omega
    · unfold medianAdjacent_func; apply median_func_range <;> omega
    · unfold medianAdjacent_func; apply median_func_range <;> omega
  · rw [if_neg h50]
    apply median_func_range <;> omega

theorem reverseLoop_reach (a b n i j : Nat) (data : List Duck) (hai : a ≤ i) (hjb : j < b) :
    Reach a b data (reverseLoop n i j data) := by
  induction n generalizing i j data with
  | zero => exact Reach.refl _
  | succ n ih =>
    unfold reverseLoop
    by_cases h : i < j
    · rw [if_pos h]
      exact Reach.trans (Reach.swap data i j hai (by omega) (by omega) hjb)
        (ih (i + 1) (j - 1) _ (by omega) (by omega))
    · rw [if_neg h]; exact Reach.refl _

theorem reverseRange_reach (data : List Duck) (a b : Nat) (hab : a < b) :
    Reach a b data (reverseRange_func data a b) := by
  unfold reverseRange_func
  exact reverseLoop_reach a b _ a (b - 1) data (le_refl _) (by omega)

theorem sortedOn_glue (a mid b : Nat) (data : List Duck) (hl : SortedOn a mid data)
    (hr : SortedOn (mid + 1) b data)
    (hlo : ∀ x, a ≤ x → x < mid → key data mid ≤ key data x)
    (hhi : ∀ y, mid < y → y < b → key data y ≤ key data mid) : SortedOn a b data := by
  intro x y hx hxy hy
  by_cases h1 : y < mid
  · exact hl x y hx hxy h1
  · by_cases h2 : mid < x
    · exact hr x y (by omega) hxy hy
    · by_cases h3 : x = mid
      · subst h3; exact hhi y (by omega) hy
      · by_cases h4 : y = mid
        · subst h4; exact hlo x hx (by omega)
        · exact le_trans (hhi y (by omega) hy) (hlo x hx (by omega))


/-! ### Pattern-defeating quicksort -/

theorem pdqsort_spec (xs : Nat → Nat → Nat) (fuel : Nat) :
    ∀ (data : List Duck) (a b limit : Nat) (wb wp : Bool), a ≤ b → b ≤ data.length →
      b - a < fuel →
      (0 < a → ∀ x, a ≤ x → x < b → key data x ≤ key data (a - 1)) →
      ∃ out, pdqsort_func xs fuel data a b limit wb wp = some out ∧ SortedOn a b out ∧
        Reach a b data out := by
  induction fuel with
  | zero => intro data a b limit wb wp hab hb hfuel; omega
  | succ fuel ih =>
    intro data a b limit wb wp hab hb hfuel hbound
    unfold pdqsort_func
    dsimp only
    by_cases h12 : b - a ≤ 12
    · rw [if_pos h12]
      obtain ⟨s1, s2, _⟩ := insertionSort_spec data a b hb
      exact ⟨_, rfl, s1, s2⟩
    · rw [if_neg h12]
      by_cases hl : limit = 0
      · rw [if_pos hl]
        obtain ⟨s1, s2⟩ := heapSort_spec data a b hab hb
        exact ⟨_, rfl, s1, s2⟩
      · rw [if_neg hl]
        have hr1 : Reach a b data (if wb = false then breakPatterns_func xs data a b else data) := by
          split
          · exact breakPatterns_reach xs data a b
          · exact Reach.refl _
        generalize (if wb = false then breakPatterns_func xs data a b else data) = data1 at *
        generalize (if wb = false then limit - 1 else limit) = limit1
        have hp := choosePivot_range data1 a b (by omega)
        generalize choosePivot_func data1 a b = ph at *
        generalize decide (ph.2 = sortedHint.decreasingHint) = rv at *
        have hr2 : Reach a b data1 (if rv = true then reverseRange_func data1 a b else data1) := by
          split
          · exact reverseRange_reach data1 a b (by omega)
          · exact Reach.refl _
        have hpv : a ≤ (if rv = true then b - 1 - (ph.1 - a) else ph.1) ∧
            (if rv = true then b - 1 - (ph.1 - a) else ph.1) < b := by
          split <;> omega
        generalize (if rv = true then reverseRange_func data1 a b else data1) = data2 at *
        generalize (if rv = true then b - 1 - (ph.1 - a) else ph.1) = pivot at *
        generalize (wb && wp && decide ((if rv = true then sortedHint.increasingHint else ph.2) =
          sortedHint.increasingHint)) = tp at *
        have hr12 : Reach a b data data2 := Reach.trans hr1 hr2
        have hb2 : b ≤ data2.length := by rw [hr12.length_eq]; exact hb
        have hbound2 := bound_of_reach hr12 hbound
        have hpr : Reach a b data2
              (if tp = true then partialInsertionSort_func data2 a b else (data2, false)).1 ∧
            ((if tp = true then partialInsertionSort_func data2 a b else (data2, false)).2 = true →
              SortedOn a b
                (if tp = true then partialInsertionSort_func data2 a b else (data2, false)).1) := by
          split
          · exact partialInsertionSort_spec data2 a b (by omega) hb2 hbound2
          · exact ⟨Reach.refl _, fun h => by simp at h⟩
        generalize (if tp = true then partialInsertionSort_func data2 a b else (data2, false))
          = pr at *
        obtain ⟨hr3, hs3⟩ := hpr
        have hr13 : Reach a b data pr.1 := Reach.trans hr12 hr3
        have hb3 : b ≤ pr.1.length := by rw [hr13.length_eq]; exact hb
        have hbound3 := bound_of_reach hr13 hbound
        by_cases hdone : pr.2 = true
        · rw [if_pos hdone]
          exact ⟨_, rfl, hs3 hdone, hr13⟩
        · rw [if_neg hdone]
          generalize pr.1 = data3 at *
          by_cases heq : a > 0 ∧ Less data3 (a - 1) pivot = false
          · rw [if_pos heq]
            obtain ⟨ha0, hle⟩ := heq
            rw [Less_false_iff] at hle
            obtain ⟨e1, e2, e3, e4, e5⟩ := partitionEqual_func_spec data3 a b pivot hpv.1 hpv.2 hb3
              (fun x hx1 hx2 => le_trans (hbound3 ha0 x hx1 hx2) hle)
            generalize partitionEqual_func data3 a b pivot = pe at *
            obtain ⟨out, ho1, ho2, ho3⟩ := ih pe.1 pe.2 b limit1 wb wp e3
              (by rw [e1.length_eq]; exact hb3) (by omega)
              (fun _ x hx1 hx2 => by
                rw [e4 (pe.2 - 1) (by omega) (by omega)]
                exact le_of_lt (e5 x hx1 hx2))
            refine ⟨out, ho1, ?_, Reach.trans hr13 (Reach.trans e1 (ho3.mono (by omega) (le_refl _)))⟩
            intro x y hx hxy hy
            by_cases hxm : pe.2 ≤ x
            · exact ho2 x y hxm hxy hy
            · rw [ho3.key_outside x (Or.inl (by omega)), e4 x hx (by omega)]
              by_cases hym : pe.2 ≤ y
              · exact le_of_lt (ho3.key_lt_range _ e5 y hym hy)
              · rw [ho3.key_outside y (Or.inl (by omega)), e4 y (by omega) (by omega)]
          · rw [if_neg heq]
            obtain ⟨p1, p2, p3, p4, p5⟩ := partition_func_spec data3 a b pivot hpv.1 hpv.2 hb3
            generalize partition_func data3 a b pivot = pt at *
            have hr14 : Reach a b data pt.1 := Reach.trans hr13 p1
            have hb4 : b ≤ pt.1.length := by rw [hr14.length_eq]; exact hb
            have hbound4 := bound_of_reach hr14 hbound
            by_cases hside : pt.2.1 - a < b - pt.2.1
            · rw [if_pos hside]
              obtain ⟨o1, ho1, hso1, hro1⟩ := ih pt.1 a pt.2.1 limit1 true true p2 (by omega)
                (by omega) (fun ha x hx1 hx2 => hbound4 ha x hx1 (by omega))
              rw [ho1]
              dsimp only
              have hkm : key o1 pt.2.1 = key pt.1 pt.2.1 :=
                hro1.key_outside _ (Or.inr (le_refl _))
              obtain ⟨o2, ho2, hso2, hro2⟩ := ih o1 (pt.2.1 + 1) b limit1
                (decide (pt.2.1 - a ≥ (b - a) / 8)) pt.2.2 (by omega)
                (by rw [hro1.length_eq]; exact hb4) (by omega)
                (fun _ x hx1 hx2 => by
                  simp only [Nat.add_sub_cancel]
                  rw [hkm, hro1.key_outside x (Or.inr (by omega))]
                  exact p5 x (by omega) hx2)
              refine ⟨o2, ho2, ?_, Reach.trans hr14 (Reach.trans (hro1.mono (le_refl _) (by omega))
                (hro2.mono (by omega) (le_refl _)))⟩
              have hkm2 : key o2 pt.2.1 = key pt.1 pt.2.1 := by
                rw [hro2.key_outside _ (Or.inl (by omega)), hkm]
              apply sortedOn_glue a pt.2.1 b o2
              · exact hso1.of_reach_outside hro2 (Or.inl (by omega))
              · exact hso2
              · intro x hx1 hx2
                rw [hkm2, hro2.key_outside x (Or.inl (by omega))]
                exact le_of_lt (hro1.key_gt_range _ p4 x hx1 hx2)
              · intro y hy1 hy2
                rw [hkm2]
                refine hro2.key_le_range _ ?_ y (by omega) hy2
                intro z hz1 hz2
                rw [hro1.key_outside z (Or.inr (by omega))]
                exact p5 z (by omega) hz2
            · rw [if_neg hside]
              obtain ⟨o1, ho1, hso1, hro1⟩ := ih pt.1 (pt.2.1 + 1) b limit1 true true (by omega)
                hb4 (by omega)
                (fun _ x hx1 hx2 => by
                  simp only [Nat.add_sub_cancel]
                  exact p5 x (by omega) hx2)
              rw [ho1]
              dsimp only
              have hkm : key o1 pt.2.1 = key pt.1 pt.2.1 :=
                hro1.key_outside _ (Or.inl (by omega))
              obtain ⟨o2, ho2, hso2, hro2⟩ := ih o1 a pt.2.1 limit1
                (decide (b - pt.2.1 ≥ (b - a) / 8)) pt.2.2 p2
                (by rw [hro1.length_eq]; omega) (by omega)
                (fun ha x hx1 hx2 => by
                  rw [hro1.key_outside x (Or.inl (by omega)),
                    hro1.key_outside (a - 1) (Or.inl (by omega))]
                  exact hbound4 ha x hx1 (by omega))
              refine ⟨o2, ho2, ?_, Reach.trans hr14 (Reach.trans (hro1.mono (by omega) (le_refl _))
                (hro2.mono (le_refl _) (by omega)))⟩
              have hkm2 : key o2 pt.2.1 = key pt.1 pt.2.1 := by
                rw [hro2.key_outside _ (Or.inr (le_refl _)), hkm]
              apply sortedOn_glue a pt.2.1 b o2
              · exact hso2
              · exact hso1.of_reach_outside hro2 (Or.inr (by omega))
              · intro x hx1 hx2
                rw [hkm2]
                refine le_of_lt (hro2.key_gt_range _ ?_ x hx1 hx2)
                intro z hz1 hz2
                rw [hro1.key_outside z (Or.inl (by omega))]
                exact p4 z hz1 hz2
              · intro y hy1 hy2
                rw [hkm2, hro2.key_outside y (Or.inr (by omega))]
                exact hro1.key_le_range _ (fun z hz1 hz2 => p5 z (by omega) hz2) y (by omega) hy2

theorem sortSlice_spec (xs : Nat → Nat → Nat) (ducks : List Duck) :
    ∃ out, sortSlice xs ducks = some out ∧ IsRanking ducks out := by
  obtain ⟨out, h1, h2, h3⟩ := pdqsort_spec xs (ducks.length + 1) ducks 0 ducks.length
    (bitsLen ducks.length) true true (Nat.zero_le _) (le_refl _) (by omega)
    (fun h => by omega)
  exact ⟨out, h1, isRanking_of ducks out h3 h2⟩

theorem sortSlice_short (xs : Nat → Nat → Nat) (ducks : List Duck) (h : ducks.length ≤ 12) :
    sortSlice xs ducks = some (insertionSort_func ducks 0 ducks.length) := by
  unfold sortSlice pdqsort_func
  dsimp only
  rw [if_pos (by omega)]

theorem sortSlice_short_spec (xs : Nat → Nat → Nat) (ducks : List Duck)
    (h : ducks.length ≤ 12) :
    ∃ out, sortSlice xs ducks = some out ∧ IsRanking ducks out ∧ KeepsTieOrder ducks out := by
  obtain ⟨s1, s2, s3⟩ := insertionSort_spec ducks 0 ducks.length (le_refl _)
  exact ⟨_, sortSlice_short xs ducks h, isRanking_of ducks _ s2 s1, s3.keepsTieOrder⟩


/-! ### Independence from the pattern-breaking generator for thirteen elements -/

theorem pdqsort_func_short (xs : Nat → Nat → Nat) (fuel : Nat) (data : List Duck)
    (a b limit : Nat) (wb wp : Bool) (h : b - a ≤ 12) :
    pdqsort_func xs (fuel + 1) data a b limit wb wp = some (insertionSort_func data a b) := by
  rw [pdqsort_func]
  dsimp only
  rw [if_pos h]

theorem pdqsort_func_thirteen (xs ys : Nat → Nat → Nat) (fuel : Nat) (data : List Duck)
    (b limit : Nat) (wp : Bool) (hb : b ≤ data.length) (h1 : 12 < b) (h2 : b ≤ 13) :
    pdqsort_func xs (fuel + 2) data 0 b limit true wp =
      pdqsort_func ys (fuel + 2) data 0 b limit true wp := by
  conv_lhs => rw [pdqsort_func]
  conv_rhs => rw [pdqsort_func]
  dsimp only
  have h12 : ¬ (b - 0 ≤ 12) := by omega
  simp only [if_neg h12]
  by_cases hl : limit = 0
  · simp only [if_pos hl]
  · simp only [if_neg hl]
    simp only [Bool.true_eq_false, if_false, gt_iff_lt, Nat.lt_irrefl, false_and]
    have hp := choosePivot_range data 0 b (by omega)
    generalize choosePivot_func data 0 b = ph at *
    generalize decide (ph.2 = sortedHint.decreasingHint) = rv
    have hr2 : Reach 0 b data (if rv = true then reverseRange_func data 0 b else data) := by
      split
      · exact reverseRange_reach data 0 b (by omega)
      · exact Reach.refl _
    have hpv : (if rv = true then b - 1 - (ph.1 - 0) else ph.1) < b := by
      split <;> omega
    generalize (if rv = true then reverseRange_func data 0 b else data) = data2 at *
    generalize (if rv = true then b - 1 - (ph.1 - 0) else ph.1) = pivot at *
    generalize (true && wp && decide ((if rv = true then sortedHint.increasingHint else ph.2) =
      sortedHint.increasingHint)) = tp
    have hb2 : b ≤ data2.length := by rw [hr2.length_eq]; exact hb
    have hr3 : Reach 0 b data2
        (if tp = true then partialInsertionSort_func data2 0 b else (data2, false)).1 := by
      split
      · exact (partialInsertionSort_spec data2 0 b (by omega) hb2 (fun h => by omega)).1
      · exact Reach.refl _
    generalize (if tp = true then partialInsertionSort_func data2 0 b else (data2, false)) = pr
      at *
    have hb3 : b ≤ pr.1.length := by rw [hr3.length_eq]; exact hb2
    obtain ⟨_, _, p3, _, _⟩ := partition_func_spec pr.1 0 b pivot (Nat.zero_le _) hpv hb3
    generalize partition_func pr.1 0 b pivot = pt at *
    by_cases hdone : pr.2 = true
    · simp only [if_pos hdone]
    · simp only [if_neg hdone]
      by_cases hside : pt.2.1 - 0 < b - pt.2.1
      · simp only [if_pos hside]
        rw [pdqsort_func_short xs fuel pt.1 0 pt.2.1 limit true true (by omega),
          pdqsort_func_short ys fuel pt.1 0 pt.2.1 limit true true (by omega)]
        dsimp only
        rw [pdqsort_func_short xs fuel _ (pt.2.1 + 1) b limit _ _ (by omega),
          pdqsort_func_short ys fuel _ (pt.2.1 + 1) b limit _ _ (by omega)]
      · simp only [if_neg hside]
        rw [pdqsort_func_short xs fuel pt.1 (pt.2.1 + 1) b limit true true (by omega),
          pdqsort_func_short ys fuel pt.1 (pt.2.1 + 1) b limit true true (by omega)]
        dsimp only
        rw [pdqsort_func_short xs fuel _ 0 pt.2.1 limit _ _ (by omega),
          pdqsort_func_short ys fuel _ 0 pt.2.1 limit _ _ (by omega)]

theorem sortSlice_thirteen (xs ys : Nat → Nat → Nat) (ducks : List Duck)
    (h : ducks.length = 13) : sortSlice xs ducks = sortSlice ys ducks := by
  unfold sortSlice
  rw [h]
  exact pdqsort_func_thirteen xs ys 12 ducks 13 _ true (by omega) (by omega) (by omega)


/-! ### Rankings -/

theorem rankLine_eq (r : Nat) (d : Duck) :
    rankLine r d =
      getOrdinal ((r : Int) + 1) ++ " " ++ medals.getD r "  " ++ " " ++ d.Name ++ "\n" := by
  unfold rankLine
  dsimp only
  split
  · rfl
  · rename_i h
    have hm : medals.length = 3 := rfl
    rw [List.getD_eq_default _ _ (by omega)]

theorem rankLines_length (k : Nat) (l : List Duck) : (rankLines k l).length = l.length := by
  induction l generalizing k with
  | nil => rfl
  | cons d rest ih => simp only [rankLines, List.length_cons, ih]

theorem rankLines_getElem? (k r : Nat) (l : List Duck) :
    (rankLines k l)[r]? = (l[r]?).map (rankLine (k + r)) := by
  induction l generalizing k r with
  | nil => simp [rankLines]
  | cons d rest ih =>
    cases r with
    | zero => simp only [rankLines, List.getElem?_cons_zero, Option.map_some', Nat.add_zero]
    | succ r =>
      simp only [rankLines, List.getElem?_cons_succ, ih]
      have e : k + 1 + r = k + (r + 1) := by omega
      rw [e]

theorem find?_eq_head?_filter (p : Duck → Bool) (l : List Duck) :
    l.find? p = (l.filter p).head? := by
  induction l with
  | nil => rfl
  | cons d rest ih =>
    by_cases h : p d = true
    · rw [List.find?_cons_of_pos _ h, List.filter_cons_of_pos h]
      rfl
    · rw [List.find?_cons_of_neg _ h, List.filter_cons_of_neg h, ih]

theorem find?_congr_mem (p q : Duck → Bool) (l : List Duck) (h : ∀ d ∈ l, p d = q d) :
    l.find? p = l.find? q := by
  induction l with
  | nil => rfl
  | cons d rest ih =>
    simp only [List.find?_cons, h d (List.mem_cons_self _ _)]
    rw [ih (fun e he => h e (List.mem_cons_of_mem _ he))]

theorem isRanking_head_max {ducks ranked : List Duck} (h : IsRanking ducks ranked) (w : Duck)
    (rest : List Duck) (hr : ranked = w :: rest) :
    w ∈ ducks ∧ ∀ d ∈ ducks, d.Position ≤ w.Position := by
  obtain ⟨hp, hs⟩ := h
  subst hr
  refine ⟨hp.subset (List.mem_cons_self _ _), ?_⟩
  intro d hd
  have hd' : d ∈ w :: rest := hp.symm.subset hd
  rw [List.pairwise_cons] at hs
  rcases List.mem_cons.mp hd' with rfl | hmem
  · exact le_refl _
  · exact hs.1 d hmem

theorem firstAtMax_of_keepsTieOrder {ducks ranked : List Duck} (h : IsRanking ducks ranked)
    (hk : KeepsTieOrder ducks ranked) (w : Duck) (rest : List Duck) (hr : ranked = w :: rest) :
    firstAtMax ducks = some w := by
  obtain ⟨hmem, hmax⟩ := isRanking_head_max h w rest hr
  unfold firstAtMax
  rw [find?_congr_mem _ (fun d => decide (d.Position = w.Position)) ducks]
  · rw [find?_eq_head?_filter, ← hk w.Position, hr]
    simp [List.filter_cons]
  · intro d hd
    have h1 := hmax d hd
    by_cases he : d.Position = w.Position
    · simp only [he, decide_True, List.all_eq_true, decide_eq_true_eq]
      exact hmax
    · simp only [he, decide_False, List.all_eq_true, decide_eq_true_eq, Bool.eq_false_iff,
        ne_eq, not_forall]
      exact ⟨w, hmem, by omega⟩

/-- C7, Ranking order, as the code has it: for every participant list and every
pattern-breaking generator, `sort.Slice` returns, and the ranking printed by the per-frame
leaderboard and by the timeout standings is a permutation of the participants in descending
order of position, the line at index `r` carrying the ordinal of `r + 1`, the medal of that
rank and that participant's name; participants with equal positions keep their input order
when there are at most 12 participants. -/
theorem C7_ranking_order (xs : Nat → Nat → Nat) (ducks : List Duck) :
    ∃ ranked,
      leaderboard xs ducks = some (ranked, rankLines 0 ranked) ∧
      timeoutResult xs ducks =
        some (ranked, rankLines 0 ranked, ranked.head?.map (fun d => d.Name)) ∧
      IsRanking ducks ranked ∧
      (rankLines 0 ranked).length = ranked.length ∧
      (∀ (r : Nat) (d : Duck), ranked[r]? = some d →
        (rankLines 0 ranked)[r]? =
          some (getOrdinal ((r : Int) + 1) ++ " " ++ medals.getD r "  " ++ " " ++ d.Name ++
            "\n")) ∧
      (ducks.length ≤ 12 → KeepsTieOrder ducks ranked) := by
  obtain ⟨ranked, h1, h2⟩ := sortSlice_spec xs ducks
  refine ⟨ranked, ?_, ?_, h2, rankLines_length 0 ranked, ?_, ?_⟩
  · simp only [leaderboard, h1, Option.map_some']
  · simp only [timeoutResult, h1, Option.map_some']
  · intro r d hd
    rw [rankLines_getElem?, hd, Option.map_some', Nat.zero_add, rankLine_eq]
  · intro hlen
    obtain ⟨out, ho1, _, ho3⟩ := sortSlice_short_spec xs ducks hlen
    rw [h1] at ho1
    injection ho1 with ho1
    rw [ho1]; exact ho3

/-- C7 for four participants with two ties: the printed lines and the kept order of ties. -/
theorem C7_ranking_order_witness :
    leaderboard (fun _ _ => 0)
        [Duck.mk "a" 5 9, Duck.mk "b" 9 9, Duck.mk "c" 5 9, Duck.mk "d" 9 9] =
      some ([Duck.mk "b" 9 9, Duck.mk "d" 9 9, Duck.mk "a" 5 9, Duck.mk "c" 5 9],
        ["1st 🥇 b\n", "2nd 🥈 d\n", "3rd 🥉 a\n", "4th    c\n"]) ∧
    KeepsTieOrder [Duck.mk "a" 5 9, Duck.mk "b" 9 9, Duck.mk "c" 5 9, Duck.mk "d" 9 9]
      [Duck.mk "b" 9 9, Duck.mk "d" 9 9, Duck.mk "a" 5 9, Duck.mk "c" 5 9] := by
  obtain ⟨ranked, h1, _, _, _, _, h6⟩ := C7_ranking_order (fun _ _ => 0)
    [Duck.mk "a" 5 9, Duck.mk "b" 9 9, Duck.mk "c" 5 9, Duck.mk "d" 9 9]
  have e : leaderboard (fun _ _ => 0)
        [Duck.mk "a" 5 9, Duck.mk "b" 9 9, Duck.mk "c" 5 9, Duck.mk "d" 9 9] =
      some ([Duck.mk "b" 9 9, Duck.mk "d" 9 9, Duck.mk "a" 5 9, Duck.mk "c" 5 9],
        ["1st 🥇 b\n", "2nd 🥈 d\n", "3rd 🥉 a\n", "4th    c\n"]) := by decide
  rw [e] at h1
  injection h1 with h1
  injection h1 with h1 _
  rw [← h1] at h6
  exact ⟨e, h6 (by decide)⟩

/-- C7, the claim as stated fails: with thirteen participants of which only the last has
moved, the leaderboard ranks "g" second and "a" seventh whatever the generator, although both
stand at position 0 and "a" comes first in the input. -/
theorem C7_ranking_not_stable :
    thirteenDucks.length = 13 ∧
    ∀ xs : Nat → Nat → Nat, ∃ ranked lines,
      leaderboard xs thirteenDucks = some (ranked, lines) ∧
      ranked.map (fun d => d.Name) =
        ["m", "g", "c", "d", "e", "f", "a", "h", "i", "j", "k", "l", "b"] ∧
      ¬ KeepsTieOrder thirteenDucks ranked := by
  refine ⟨rfl, ?_⟩
  intro xs
  have hx : leaderboard xs thirteenDucks = leaderboard (fun _ _ => 0) thirteenDucks := by
    unfold leaderboard
    rw [sortSlice_thirteen xs (fun _ _ => 0) thirteenDucks rfl]
  have he : ∃ r, leaderboard (fun _ _ => 0) thirteenDucks = some r ∧
      r.1.map (fun d => d.Name) =
        ["m", "g", "c", "d", "e", "f", "a", "h", "i", "j", "k", "l", "b"] ∧
      r.1.filter (fun d => decide (d.Position = 0)) ≠
        thirteenDucks.filter (fun d => decide (d.Position = 0)) := by
    decide
  obtain ⟨r, hr1, hr2, hr3⟩ := he
  exact ⟨r.1, r.2, hx.trans hr1, hr2, fun hk => hr3 (hk 0)⟩

/-- C3, Timeout result, as the code has it: for every non-empty participant list and every
pattern-breaking generator, the name printed as winner by distance is that of a participant
whose position is the maximum over all participants; when there are at most 12 participants
it is the first participant in input order at that maximum. -/
theorem C3_winner_by_distance (xs : Nat → Nat → Nat) (ducks : List Duck) (hne : ducks ≠ []) :
    ∃ ranked lines w,
      timeoutResult xs ducks = some (ranked, lines, some w.Name) ∧
      w ∈ ducks ∧ (∀ d ∈ ducks, d.Position ≤ w.Position) ∧
      (ducks.length ≤ 12 → firstAtMax ducks = some w) := by
  obtain ⟨ranked, h1, h2⟩ := sortSlice_spec xs ducks
  have hrne : ranked ≠ [] := by
    intro e
    have := h2.1.length_eq
    rw [e] at this
    exact hne (List.length_eq_zero.mp this.symm)
  obtain ⟨w, rest, hr⟩ := List.exists_cons_of_ne_nil hrne
  obtain ⟨hmem, hmax⟩ := isRanking_head_max h2 w rest hr
  refine ⟨ranked, rankLines 0 ranked, w, ?_, hmem, hmax, ?_⟩
  · simp only [timeoutResult, h1, Option.map_some', hr, List.head?_cons]
  · intro hlen
    obtain ⟨out, ho1, _, ho3⟩ := sortSlice_short_spec xs ducks hlen
    rw [h1] at ho1
    injection ho1 with ho1
    rw [← ho1] at ho3
    exact firstAtMax_of_keepsTieOrder h2 ho3 w rest hr

/-- C3 for three participants of which the last two share the lead. -/
theorem C3_winner_by_distance_witness :
    [Duck.mk "a" 10 70, Duck.mk "b" 30 70, Duck.mk "c" 30 70] ≠ [] ∧
    ∃ ranked lines w,
      timeoutResult (fun _ _ => 0) [Duck.mk "a" 10 70, Duck.mk "b" 30 70, Duck.mk "c" 30 70] =
        some (ranked, lines, some w.Name) ∧
      w ∈ [Duck.mk "a" 10 70, Duck.mk "b" 30 70, Duck.mk "c" 30 70] ∧
      (∀ d ∈ [Duck.mk "a" 10 70, Duck.mk "b" 30 70, Duck.mk "c" 30 70],
        d.Position ≤ w.Position) ∧
      ([Duck.mk "a" 10 70, Duck.mk "b" 30 70, Duck.mk "c" 30 70].length ≤ 12 →
        firstAtMax [Duck.mk "a" 10 70, Duck.mk "b" 30 70, Duck.mk "c" 30 70] = some w) :=
  ⟨by decide, C3_winner_by_distance (fun _ _ => 0)
    [Duck.mk "a" 10 70, Duck.mk "b" 30 70, Duck.mk "c" 30 70] (by decide)⟩

/-- C3, the claim as stated fails: with thirteen participants of which the first and the
third share the lead at position 44, the name printed as winner by distance is "c" whatever
the generator, although "a" comes first in the input. -/
theorem C3_tie_not_first :
    tiedLeaders.length = 13 ∧
    firstAtMax tiedLeaders = some (Duck.mk "a" 44 70) ∧
    (∀ d ∈ tiedLeaders, d.Position ≤ 44 ∧ d.Position < finishLine) ∧
    ∀ xs : Nat → Nat → Nat,
      (timeoutResult xs tiedLeaders).map (fun r => r.2.2) = some (some "c") := by
  refine ⟨rfl, by decide, by decide, ?_⟩
  intro xs
  have hx : timeoutResult xs tiedLeaders = timeoutResult (fun _ _ => 0) tiedLeaders := by
    unfold timeoutResult
    rw [sortSlice_thirteen xs (fun _ _ => 0) tiedLeaders rfl]
  rw [hx]
  decide

end DuckRace
